import Mathlib

/-!
# comment2issue: PDF highlight comments rendered as a Markdown checklist

A shallow embedding of `main.go` and the properties of its classifier
(`summarizeComment`), renderer (`markdownizeComment`) and driver
(`scrapeFile`, `mainErr`, `main`).

Modelling conventions.

* A Go `string` is the list of its code points (`GoString`).  The program
  only inspects strings through `strings.TrimSpace`, `strings.ReplaceAll`,
  `strings.Split`, `regexp` and `fmt`, all of which work code point by code
  point on well-formed UTF-8.
* A Go `map` is an association list whose order is the (unspecified)
  iteration order of the map; `maps.Keys` enumerates the keys in that order.
* Standard output is the text written so far; `fmt.Print` appends to it.
* `os.Open` and `pdfcpu.Annotations` are external: they are fields of a
  `World` record.
-/

namespace Comment2Issue

/-! # Definitions -/

/-! ## Go strings and the standard-library functions the program calls -/

/-- A Go string as the sequence of its code points. -/
abbrev GoString := List Char

/-- The verb `%d` of package `fmt` applied to an `int`: decimal digits,
preceded by a minus sign for a negative number. -/
def fmt_d : Int → GoString
  | Int.ofNat n => Nat.toDigits 10 n
  | Int.negSucc n => '-' :: Nat.toDigits 10 (n + 1)

/-- `strings.Split(s, sep)` for a one-character separator: the pieces of `s`
between occurrences of `sep`, empty pieces included; a string without `sep`
(the empty string too) yields the single piece `s`. -/
def strings_Split (s : GoString) (sep : Char) : List GoString :=
  List.splitOn sep s

/-- `unicode.IsSpace`: the Latin-1 spaces `\t \n \v \f \r`, space, U+0085,
U+00A0, and the code points with the Unicode White_Space property. -/
def unicode_IsSpace (c : Char) : Bool :=
  let n := c.toNat
  (0x09 ≤ n && n ≤ 0x0D) || n == 0x20 || n == 0x85 || n == 0xA0 ||
  n == 0x1680 || (0x2000 ≤ n && n ≤ 0x200A) || n == 0x2028 || n == 0x2029 ||
  n == 0x202F || n == 0x205F || n == 0x3000

/-- `strings.TrimSpace`: `TrimRightFunc(TrimLeftFunc(s, unicode.IsSpace),
unicode.IsSpace)`. -/
def strings_TrimSpace (s : GoString) : GoString :=
  (s.dropWhile unicode_IsSpace).rdropWhile unicode_IsSpace

/-- `strings.ReplaceAll(s, old, new)` for one-character `old` and `new`. -/
def strings_ReplaceAll (s : GoString) (old new : Char) : GoString :=
  s.map (fun c => if c = old then new else c)

/-! ## The renderer -/

/-- `markdownizeComment` of `main.go`.  The `strings.Builder` is the text
accumulated so far; each `fmt.Fprintf` appends its formatted line. -/
def markdownizeComment (page : Int) (level content : GoString) : GoString :=
  let result : GoString := []
  let result :=
    if level ≠ [] then
      result ++ ("- [ ] Page ".toList ++ fmt_d page ++ " (".toList ++ level ++ ")\n".toList)
    else
      result ++ ("- [ ] Page ".toList ++ fmt_d page ++ "\n".toList)
  (strings_Split content '\n').foldl
    (fun result line => result ++ ("    > ".toList ++ line ++ "\n".toList)) result

/-- The header line of a block, in the words of the specification. -/
def headerLine (page : Int) (severity : GoString) : GoString :=
  if severity = [] then "- [ ] Page ".toList ++ fmt_d page ++ "\n".toList
  else "- [ ] Page ".toList ++ fmt_d page ++ " (".toList ++ severity ++ ")\n".toList

/-- One block-quoted line, in the words of the specification. -/
def quotedLine (line : GoString) : GoString :=
  "    > ".toList ++ line ++ "\n".toList

/-- The renderer as the specification words it: the header line followed by
one quoted line per piece of the body split on newline. -/
def renderSpec (page : Int) (severity body : GoString) : GoString :=
  headerLine page severity ++ ((strings_Split body '\n').map quotedLine).flatten

/-! ## The regular-expression engine

`regexp.MustCompile` and `FindStringSubmatch` for the fragment of RE2 syntax
the program's pattern is written in.  Matching is by backtracking with the
preferences of Go's (non-POSIX) semantics: the leftmost match, and within it a
greedy repetition takes as many characters as the rest of the pattern allows.
Capture groups record the positions where they start and end, and the
submatches are the corresponding substrings of the text. -/

/-- Regular expressions: literals, character classes, greedy `*` and `+` of a
class, concatenation, numbered capture groups, and the anchors `^`, `$`
(without the `m` flag: beginning and end of the text). -/
inductive Regexp where
  | lit (c : Char)
  | cls (p : Char → Bool)
  | star (p : Char → Bool)
  | plus (p : Char → Bool)
  | seq (a b : Regexp)
  | group (n : Nat) (r : Regexp)
  | bol
  | eol

/-- Recorded capture groups: group number, start and end position. -/
abbrev Caps := List (Nat × Nat × Nat)

/-- What remains to be matched: called with the position reached, the rest of
the text and the captures recorded so far. -/
abbrev Cont := Nat → GoString → Caps → Option Caps

/-- Greedy repetition of a class: one more character is preferred, and the
continuation is tried at the current position only if that fails. -/
def starLoop (p : Char → Bool) (k : Cont) : Nat → GoString → Caps → Option Caps
  | pos, [], caps => k pos [] caps
  | pos, c :: cs, caps =>
    if p c then
      match starLoop p k (pos + 1) cs caps with
      | some r => some r
      | none => k pos (c :: cs) caps
    else k pos (c :: cs) caps

/-- Match a regular expression at position `pos`, where `s` is the text from
`pos` on, then continue with `k`. -/
def Regexp.run : Regexp → Cont → Nat → GoString → Caps → Option Caps
  | .lit c, k, pos, s, caps =>
    match s with
    | x :: t => if x = c then k (pos + 1) t caps else none
    | [] => none
  | .cls p, k, pos, s, caps =>
    match s with
    | x :: t => if p x then k (pos + 1) t caps else none
    | [] => none
  | .star p, k, pos, s, caps => starLoop p k pos s caps
  | .plus p, k, pos, s, caps =>
    match s with
    | x :: t => if p x then starLoop p k (pos + 1) t caps else none
    | [] => none
  | .seq a b, k, pos, s, caps => a.run (fun pos1 s1 caps1 => b.run k pos1 s1 caps1) pos s caps
  | .group n r, k, pos, s, caps =>
    r.run (fun pos1 s1 caps1 => k pos1 s1 ((n, pos, pos1) :: caps1)) pos s caps
  | .bol, k, pos, s, caps => if pos = 0 then k pos s caps else none
  | .eol, k, pos, s, caps => if s = [] then k pos s caps else none

/-- `(*Regexp).NumSubexp`: the number of capture groups. -/
def Regexp.NumSubexp : Regexp → Nat
  | .seq a b => a.NumSubexp + b.NumSubexp
  | .group _ r => r.NumSubexp + 1
  | _ => 0

/-- The leftmost match: try the start position `pos`, then the later ones.
Group 0 is the whole match. -/
def Regexp.findAt (re : Regexp) : Nat → GoString → Option Caps
  | pos, [] => re.run (fun e _ caps => some ((0, pos, e) :: caps)) pos [] []
  | pos, c :: t =>
    match re.run (fun e _ caps => some ((0, pos, e) :: caps)) pos (c :: t) [] with
    | some caps => some caps
    | none => re.findAt (pos + 1) t

/-- `(*Regexp).FindStringSubmatch`: `nil` (the empty list) when there is no
match, otherwise the text of the match followed by the text of each group. -/
def Regexp.FindStringSubmatch (re : Regexp) (s : GoString) : List GoString :=
  match re.findAt 0 s with
  | none => []
  | some caps =>
    (List.range (re.NumSubexp + 1)).map fun n =>
      match caps.lookup n with
      | some (a, b) => (s.drop a).take (b - a)
      | none => []

/-- The class `\w` of RE2: ASCII digits, letters and underscore. -/
def isWordChar (c : Char) : Bool :=
  let n := c.toNat
  (0x30 ≤ n && n ≤ 0x39) || (0x41 ≤ n && n ≤ 0x5A) || n == 0x5F || (0x61 ≤ n && n ≤ 0x7A)

/-- The class `.` of RE2 without the `s` flag: any character but newline. -/
def isNotNewline (c : Char) : Bool := c != '\n'

/-- The pattern `^\[(\w+)\] (.*)$` of `summarizeComment`. -/
def tagPattern : Regexp :=
  .seq .bol (.seq (.lit '[') (.seq (.group 1 (.plus isWordChar)) (.seq (.lit ']')
    (.seq (.lit ' ') (.seq (.group 2 (.star isNotNewline)) .eol)))))

/-! ## The classifier -/

/-- `model.AnnotationType` of pdfcpu, an `int` enumeration.  The three
constants below have the values of that enumeration; the program relies only
on their being distinct. -/
abbrev AnnotationType := Int

/-- `model.AnnLink`. -/
def AnnLink : AnnotationType := 1

/-- `model.AnnHighLight`. -/
def AnnHighLight : AnnotationType := 8

/-- `model.AnnPopup`. -/
def AnnPopup : AnnotationType := 15

/-- `model.AnnotationRenderer` of pdfcpu, as far as the program looks at it:
the results of its methods `Type()` and `ContentString()`. -/
structure AnnotationRenderer where
  annType : AnnotationType
  contentString : GoString
deriving DecidableEq

/-- `getCommentContents` of `main.go`. -/
def getCommentContents ( annotation : AnnotationRenderer) : GoString :=
  if annotation.annType = AnnLink ∨ annotation.annType = AnnPopup then []
  else if annotation.annType = AnnHighLight then annotation.contentString
  else []

/-- `summarizeComment` of `main.go`. -/
def summarizeComment (c : AnnotationRenderer) : GoString × GoString :=
  let rawContents := getCommentContents c
  let rawContents := strings_TrimSpace rawContents
  let rawContents := strings_ReplaceAll rawContents '\r' '\n'
  let r := tagPattern
  let ms := r.FindStringSubmatch rawContents
  if ms.length = 3 then (ms.getD 1 [], ms.getD 2 []) else ([], rawContents)

/-- The normalized content string of the specification: trimmed, then every
carriage return replaced by a newline. -/
def normalize (content : GoString) : GoString :=
  strings_ReplaceAll (strings_TrimSpace content) '\r' '\n'

/-- The pattern read directly as a scanner: `[`, the longest run of word
characters, `]`, a space, and a remainder without newline. -/
def tagMatch (s : GoString) : Option (GoString × GoString) :=
  match s with
  | '[' :: t =>
    match t.dropWhile isWordChar with
    | ']' :: ' ' :: rest =>
      if t.takeWhile isWordChar ≠ [] ∧ rest.all isNotNewline = true then
        some (t.takeWhile isWordChar, rest)
      else none
    | _ => none
  | _ => none

/-- Whether a string begins with `[`, one or more word characters, `]` and a
space. -/
def hasTagPrefix (s : GoString) : Bool :=
  match s with
  | '[' :: t =>
    match t.dropWhile isWordChar with
    | ']' :: ' ' :: _ => !(t.takeWhile isWordChar).isEmpty
    | _ => false
  | _ => false

/-! ## Maps, key collection and sorting -/

/-- A Go map with `int`-like keys (`int`, `model.AnnotationType`): its
entries in the order in which the map happens to be iterated.  The keys of a
map are distinct (`GoMap.WF`). -/
abbrev GoMap (V : Type) := List (Int × V)

/-- The keys of a Go map are distinct. -/
def GoMap.WF {V : Type} (m : GoMap V) : Prop := (m.map Prod.fst).Nodup

/-- The index expression `m[k]`, `none` standing for an absent key. -/
def GoMap.get {V : Type} (m : GoMap V) (k : Int) : Option V := List.lookup k m

/-- `maps.Keys`: the keys, in iteration order. -/
def maps_Keys {V : Type} (m : GoMap V) : List Int := m.map Prod.fst

/-- `collect` of `main.go`: append every element the iterator yields. -/
def collect {V : Type} (i : List V) : List V :=
  i.foldl (fun vs v => vs ++ [v]) []

/-- The inner loop of insertion sort, on the sorted part of the slice held
from its right end: `x` moves left past every element it is `less` than. -/
def insertLeftward (less : Int → Int → Bool) (x : Int) : List Int → List Int
  | [] => [x]
  | y :: done => if less x y then y :: insertLeftward less x done else x :: y :: done

/-- `sort.Slice(data, less)`, as insertion sort.  The order `less` of
`sorted` is the strict order of the integers, for which every sorting
algorithm returns the same slice (`sort_Slice_unique`). -/
def sort_Slice (less : Int → Int → Bool) (data : List Int) : List Int :=
  (data.foldl (fun done x => insertLeftward less x done) []).reverse

/-- `sorted` of `main.go`. -/
def sorted (i : List Int) : List Int :=
  let result := collect i
  sort_Slice (fun a b => decide (a < b)) result

/-! ## The driver -/

/-- `model.Annot` of pdfcpu: the annotations of one type on one page, by
object number (`Map`; the field `IndRefs` is not read by the program). -/
structure Annot where
  Map : GoMap AnnotationRenderer
deriving DecidableEq

/-- `model.PgAnnots` of pdfcpu: the annotations of a page by type. -/
abbrev PgAnnots := GoMap Annot

/-- The result of `pdfcpu.Annotations`: the annotations by page number. -/
abbrev Annotations := GoMap PgAnnots

/-- The three nested loops of `scrapeFile`, as a function of what standard
output held before.  An index expression on an absent key gives Go's zero
value, an empty map, at the two outer levels; at the innermost level the key
always comes from the map indexed (`get_isSome_of_mem_sorted_keys`). -/
def scrapeLoop (annotations : Annotations) (stdout : GoString) : GoString :=
  let pages := sorted (maps_Keys annotations)
  pages.foldl (fun stdout page =>
    let pageAnnotations := (annotations.get page).getD []
    let kinds := sorted (maps_Keys pageAnnotations)
    kinds.foldl (fun stdout kind =>
      let annot := (pageAnnotations.get kind).getD ⟨[]⟩
      let commentIDs := sorted (maps_Keys annot.Map)
      commentIDs.foldl (fun stdout commentID =>
        match annot.Map.get commentID with
        | some c =>
          let (level, comment) := summarizeComment c
          if comment ≠ [] then stdout ++ markdownizeComment page level comment else stdout
        | none => stdout) stdout) stdout) stdout

/-- Every map of the extracted annotations has distinct keys. -/
def Annotations.WF (annotations : Annotations) : Prop :=
  GoMap.WF annotations ∧
  ∀ pa ∈ annotations, GoMap.WF pa.2 ∧ ∀ ka ∈ pa.2, GoMap.WF ka.2.Map

/-- One annotation with its place: page, kind, identifier. -/
structure Entry where
  page : Int
  kind : Int
  id : Int
  ann : AnnotationRenderer
deriving DecidableEq

/-- All annotations of the mapping with their places. -/
def entries (annotations : Annotations) : List Entry :=
  annotations.flatMap fun pa =>
    pa.2.flatMap fun ka =>
      ka.2.Map.map fun ia => ⟨pa.1, ka.1, ia.1, ia.2⟩

/-- Ascending order of places: by page, then by kind, then by identifier. -/
def Entry.lt (a b : Entry) : Prop :=
  a.page < b.page ∨ (a.page = b.page ∧ (a.kind < b.kind ∨ (a.kind = b.kind ∧ a.id < b.id)))

/-- The body `summarizeComment` gives an annotation is not empty. -/
def hasBody (e : Entry) : Bool := !(summarizeComment e.ann).2.isEmpty

/-- The block of one annotation: `markdownizeComment` of its page and of the
severity and body `summarizeComment` gives it. -/
def block (e : Entry) : GoString :=
  markdownizeComment e.page (summarizeComment e.ann).1 (summarizeComment e.ann).2

/-- The text the specification describes for a list of annotations: the
blocks of those with a non-empty body, concatenated in order. -/
def renderEntries (es : List Entry) : GoString :=
  ((es.filter hasBody).map block).flatten

/-- The entries of a map in ascending order of their keys, as the loops of
`scrapeFile` visit them: the sorted keys, each with the value the map holds
for it. -/
def GoMap.ascending {V : Type} (m : GoMap V) : GoMap V :=
  (sorted (maps_Keys m)).filterMap fun k => (m.get k).map fun v => (k, v)

/-- The annotations in the order of the three nested loops. -/
def orderedEntries (annotations : Annotations) : List Entry :=
  (GoMap.ascending annotations).flatMap fun pa =>
    (GoMap.ascending pa.2).flatMap fun ka =>
      (GoMap.ascending ka.2.Map).map fun ia => ⟨pa.1, ka.1, ia.1, ia.2⟩

instance GoMap.decidableWF {V : Type} (m : GoMap V) : Decidable (GoMap.WF m) :=
  inferInstanceAs (Decidable (m.map Prod.fst).Nodup)

instance Annotations.decidableWF (annotations : Annotations) :
    Decidable (Annotations.WF annotations) :=
  inferInstanceAs (Decidable (GoMap.WF annotations ∧
    ∀ pa ∈ annotations, GoMap.WF pa.2 ∧ ∀ ka ∈ pa.2, GoMap.WF ka.2.Map))

/-- A highlight annotation with the given content. -/
def highlight (content : String) : AnnotationRenderer := ⟨AnnHighLight, content.toList⟩

/-- Sample annotations on pages 2, 10 and 1, enumerated in that order, each
page with several comments enumerated out of order; page 10 also has a link
and page 1 a popup and a highlight of blanks only. -/
def sampleAnnotations : Annotations :=
  [(2, [(AnnHighLight, ⟨[(7, highlight "two-b"), (4, highlight "[MINOR] two-a")]⟩)]),
   (10, [(AnnHighLight, ⟨[(6, highlight "ten-b"), (1, highlight "ten-a")]⟩),
         (AnnLink, ⟨[(3, ⟨AnnLink, "https://example.org".toList⟩)]⟩)]),
   (1, [(AnnPopup, ⟨[(3, ⟨AnnPopup, "popup".toList⟩)]⟩),
        (AnnHighLight, ⟨[(9, highlight "one-b\rmore"), (2, highlight "  "),
                         (5, highlight "one-a")]⟩)])]

/-- Two enumerations of the same map, up to the relation `R` between the
values they hold for a key: the entries of the first, taken in another order,
are key by key those of the second. -/
def Reenumerated {V : Type} (R : V → V → Prop) (m1 m2 : GoMap V) : Prop :=
  ∃ m : GoMap V, m1.Perm m ∧ List.Forall₂ (fun a b => a.1 = b.1 ∧ R a.2 b.2) m m2

/-- Two enumerations of the same mapping page -> kind -> id -> annotation: the
keys of every level may come in any order. -/
def SameAnnotations (a1 a2 : Annotations) : Prop :=
  Reenumerated (Reenumerated fun x y : Annot => x.Map.Perm y.Map) a1 a2

/-- The sample annotations, every map enumerated in another order. -/
def sampleReordered : Annotations :=
  [(1, [(AnnHighLight, ⟨[(2, highlight "  "), (5, highlight "one-a"),
                         (9, highlight "one-b\rmore")]⟩),
        (AnnPopup, ⟨[(3, ⟨AnnPopup, "popup".toList⟩)]⟩)]),
   (2, [(AnnHighLight, ⟨[(4, highlight "[MINOR] two-a"), (7, highlight "two-b")]⟩)]),
   (10, [(AnnLink, ⟨[(3, ⟨AnnLink, "https://example.org".toList⟩)]⟩),
         (AnnHighLight, ⟨[(1, highlight "ten-a"), (6, highlight "ten-b")]⟩)])]

/-- The annotations without those that `summarizeComment` gives an empty
body: each is removed from the map that holds it. -/
def pruneEmpty (annotations : Annotations) : Annotations :=
  annotations.map fun pa =>
    (pa.1, pa.2.map fun ka =>
      (ka.1, ⟨ka.2.Map.filter fun ia => !(summarizeComment ia.2).2.isEmpty⟩))

/-- Sample annotations none of which has a body: a link, a popup, and
highlights that are empty or white space only. -/
def sampleBlank : Annotations :=
  [(3, [(AnnHighLight, ⟨[(2, highlight " \t\r\n"), (1, highlight "")]⟩),
        (AnnLink, ⟨[(5, ⟨AnnLink, "[TAG] a link".toList⟩)]⟩)]),
   (1, [(AnnPopup, ⟨[(4, ⟨AnnPopup, "a popup".toList⟩)]⟩)])]

/-! ## The process: files, errors and the command line -/

/-- A Go `error` value, by its message. -/
structure GoError where
  msg : String
deriving DecidableEq

/-- What the program finds outside itself: `os.Open` of a file name fails or
gives a file, and `pdfcpu.Annotations` of a file (all pages, default
configuration) fails or gives the annotations. -/
structure World where
  osOpen : String → Except GoError Nat
  pdfcpuAnnotations : Nat → Except GoError Annotations

/-- What the process has done so far: the text written to standard output and
to standard error, the file names `scrapeFile` was called with, the names
passed to `os.Open`, and the files closed, each in order. -/
structure Proc where
  stdout : GoString
  stderr : GoString
  calls : List String
  opens : List String
  closed : List Nat

/-- A process that has not done anything yet. -/
def Proc.start : Proc := ⟨[], [], [], [], []⟩

/-- `scrapeFile` of `main.go`: the error returned (`none` for `nil`) and the
process afterwards.  The deferred `f.Close()` runs on every return after the
file was opened. -/
def scrapeFile (w : World) (filename : String) (p : Proc) : Option GoError × Proc :=
  let p := { p with calls := p.calls ++ [filename], opens := p.opens ++ [filename] }
  match w.osOpen filename with
  | .error err => (some err, p)
  | .ok f =>
    match w.pdfcpuAnnotations f with
    | .error err => (some err, { p with closed := p.closed ++ [f] })
    | .ok annotations =>
      (none, { p with stdout := scrapeLoop annotations p.stdout, closed := p.closed ++ [f] })

/-- The loop of `mainErr` over the arguments, returning at the first error. -/
def scrapeFiles (w : World) : List String → Proc → Option GoError × Proc
  | [], p => (none, p)
  | filename :: rest, p =>
    match scrapeFile w filename p with
    | (some err, p1) => (some err, p1)
    | (none, p1) => scrapeFiles w rest p1

/-- The error `mainErr` makes up when no file is named. -/
def usageError : GoError :=
  ⟨"please provide at least one pdf to scrape comments from"⟩

/-- `mainErr` of `main.go`, `args` being `flag.Args()`. -/
def mainErr (w : World) (args : List String) (p : Proc) : Option GoError × Proc :=
  if args.length = 0 then (some usageError, p)
  else scrapeFiles w args p

/-- `main` of `main.go` after `flag.Parse()`: the exit status and the process
at exit. -/
def main (w : World) (args : List String) (p : Proc) : Nat × Proc :=
  match mainErr w args p with
  | (some err, p1) => (1, { p1 with stderr := p1.stderr ++ err.msg.toList ++ ['\n'] })
  | (none, p1) => (0, p1)

/-- The error `scrapeFile` returns for a file name (it does not depend on what
the process did before). -/
def scrapeError (w : World) (filename : String) : Option GoError :=
  (scrapeFile w filename Proc.start).1

/-- A world with one readable PDF, `valid.pdf`, holding the sample
annotations; no other file exists. -/
def sampleWorld : World where
  osOpen := fun name =>
    if name = "valid.pdf" then .ok 3
    else .error ⟨"open " ++ name ++ ": no such file or directory"⟩
  pdfcpuAnnotations := fun f =>
    if f = 3 then .ok sampleAnnotations else .error ⟨"pdfcpu: not a PDF file"⟩

/-- The number a string of decimal digits stands for. -/
def digitsValue (l : List Char) : Nat :=
  l.foldl (fun a c => 10 * a + (c.toNat - 48)) 0

/-! # Theorems -/

set_option maxRecDepth 100000

/-! ## Renderer: proofs -/

theorem foldl_append_eq_join (f : GoString → GoString) (ls : List GoString) (acc : GoString) :
    ls.foldl (fun result line => result ++ f line) acc = acc ++ (ls.map f).flatten := by
  induction ls generalizing acc with
  | nil => simp
  | cons l ls ih => simp [ih, List.append_assoc]

theorem markdownizeComment_eq_renderSpec (page : Int) (severity body : GoString) :
    markdownizeComment page severity body = renderSpec page severity body := by
  unfold markdownizeComment renderSpec headerLine
  rw [foldl_append_eq_join (fun line => "    > ".toList ++ line ++ "\n".toList)]
  have hq : (fun line : GoString => "    > ".toList ++ line ++ "\n".toList) = quotedLine := rfl
  rw [hq]
  by_cases h : severity = []
  · simp [h]
  · simp [h]

theorem strings_Split_intercalate (s : GoString) (sep : Char) :
    [sep].intercalate (strings_Split s sep) = s :=
  List.intercalate_splitOn s sep

theorem splitOnP_no_sep (p : Char → Bool) (s : GoString) :
    ∀ piece ∈ s.splitOnP p, ∀ c ∈ piece, p c = false := by
  induction s with
  | nil => intro piece hp c hc; simp [List.splitOnP_nil] at hp; subst hp; cases hc
  | cons x xs ih =>
    intro piece hp c hc
    rw [List.splitOnP_cons] at hp
    by_cases hx : p x = true
    · rw [if_pos hx] at hp
      rcases List.mem_cons.mp hp with rfl | hp
      · cases hc
      · exact ih piece hp c hc
    · rw [if_neg hx] at hp
      cases hsp : List.splitOnP p xs with
      | nil => exact absurd hsp (List.splitOnP_ne_nil p xs)
      | cons h t =>
        rw [hsp, List.modifyHead_cons] at hp
        rcases List.mem_cons.mp hp with rfl | hp
        · rcases List.mem_cons.mp hc with rfl | hc
          · simpa using hx
          · exact ih h (by rw [hsp]; exact List.mem_cons_self _ _) c hc
        · exact ih piece (by rw [hsp]; exact List.mem_cons_of_mem _ hp) c hc

theorem strings_Split_no_sep (s : GoString) (sep : Char) :
    ∀ piece ∈ strings_Split s sep, sep ∉ piece := by
  intro piece hp hc
  have := splitOnP_no_sep (fun c => c == sep) s piece hp sep hc
  simp at this

/-- C1: for every page, severity and body, `markdownizeComment` is the header
line (`- [ ] Page <page> (<severity>)` or, for an empty severity,
`- [ ] Page <page>`) followed by one line `    > <piece>` per piece of the body
split on newline, in order, empty pieces included; the pieces hold no newline
and joined by newlines give back the body; and the two sample renderings of
the specification come out as written. -/
theorem C1_markdownizeComment_format :
    (∀ (page : Int) (severity body : GoString),
      markdownizeComment page severity body
        = headerLine page severity ++ ((strings_Split body '\n').map quotedLine).flatten
      ∧ ['\n'].intercalate (strings_Split body '\n') = body
      ∧ ∀ piece ∈ strings_Split body '\n', '\n' ∉ piece)
    ∧ markdownizeComment 3 "MINOR".toList "line one\nline two".toList
        = "- [ ] Page 3 (MINOR)\n    > line one\n    > line two\n".toList
    ∧ markdownizeComment 5 "".toList "solo".toList = "- [ ] Page 5\n    > solo\n".toList := by
  refine ⟨fun page severity body =>
    ⟨?_, strings_Split_intercalate body '\n', strings_Split_no_sep body '\n'⟩, ?_, ?_⟩
  · exact markdownizeComment_eq_renderSpec page severity body
  · decide
  · decide

/-! ## The regular expression: proofs -/

theorem starLoop_greedy (p : Char → Bool) (k : Cont)
    (hk : ∀ pos c cs caps, p c = true → k pos (c :: cs) caps = none)
    (s : GoString) (pos : Nat) (caps : Caps) :
    starLoop p k pos s caps = k (pos + (s.takeWhile p).length) (s.dropWhile p) caps := by
  induction s generalizing pos with
  | nil => simp [starLoop]
  | cons c cs ih =>
    by_cases hc : p c = true
    · simp only [starLoop, hc, if_true, List.takeWhile_cons_of_pos, List.dropWhile_cons_of_pos,
        List.length_cons]
      rw [ih (pos + 1), hk pos c cs caps hc]
      have : pos + 1 + (List.takeWhile p cs).length = pos + ((List.takeWhile p cs).length + 1) := by
        omega
      rw [this]
      cases k (pos + ((List.takeWhile p cs).length + 1)) (List.dropWhile p cs) caps <;> rfl
    · simp [starLoop, hc]

theorem starLoop_toEnd (p : Char → Bool) (k : Cont)
    (hk : ∀ pos c cs caps, k pos (c :: cs) caps = none)
    (s : GoString) (pos : Nat) (caps : Caps) :
    starLoop p k pos s caps = if s.all p = true then k (pos + s.length) [] caps else none := by
  induction s generalizing pos with
  | nil => simp [starLoop]
  | cons c cs ih =>
    by_cases hc : p c = true
    · simp only [starLoop, hc, if_true, List.all_cons, Bool.true_and, List.length_cons]
      rw [ih (pos + 1), hk pos c cs caps]
      have : pos + 1 + cs.length = pos + (cs.length + 1) := by omega
      rw [this]
      by_cases ha : cs.all p = true
      · simp only [ha, if_true]
        cases k (pos + (cs.length + 1)) [] caps <;> rfl
      · simp [ha]
    · simp [starLoop, hc, hk]

theorem isWordChar_ne_bracket (c : Char) (h : isWordChar c = true) : c ≠ ']' := by
  rintro rfl
  exact absurd h (by decide)

theorem tagPattern_run_succ (k : Cont) (s : GoString) (pos : Nat) (caps : Caps) :
    tagPattern.run k (pos + 1) s caps = none := by
  simp [tagPattern, Regexp.run]

theorem tagPattern_findAt_succ (s : GoString) (pos : Nat) :
    tagPattern.findAt (pos + 1) s = none := by
  induction s generalizing pos with
  | nil => simp [Regexp.findAt, tagPattern_run_succ]
  | cons c t ih => simp [Regexp.findAt, tagPattern_run_succ, ih]

theorem length_of_dropWhile_eq (p : Char → Bool) (t d : GoString)
    (h : t.dropWhile p = d) : t.length = (t.takeWhile p).length + d.length := by
  rw [← h, ← List.length_append, List.takeWhile_append_dropWhile]

theorem tagPattern_run_zero (s : GoString) :
    tagPattern.run (fun e _ caps => some ((0, 0, e) :: caps)) 0 s []
      = match tagMatch s with
        | some (tag, _) =>
          some [(0, 0, s.length), (2, tag.length + 3, s.length), (1, 1, tag.length + 1)]
        | none => none := by
  match s with
  | [] => simp [tagPattern, Regexp.run, tagMatch]
  | c :: t =>
    by_cases hc : c = '['
    · subst hc
      match t with
      | [] => simp [tagPattern, Regexp.run, tagMatch]
      | x :: u =>
        by_cases hx : isWordChar x = true
        · simp only [tagPattern, Regexp.run, if_true, hx]
          rw [starLoop_greedy]
          · simp only [tagMatch, List.dropWhile_cons_of_pos hx, List.takeWhile_cons_of_pos hx]
            generalize hd : List.dropWhile isWordChar u = d
            have hlen := length_of_dropWhile_eq isWordChar u d hd
            match d with
            | [] => simp
            | [a] => by_cases ha : a = ']' <;> simp [ha]
            | a :: b :: rest =>
              by_cases ha : a = ']'
              · subst ha
                by_cases hb : b = ' '
                · subst hb
                  simp only [if_true]
                  rw [starLoop_toEnd]
                  · by_cases hr : rest.all isNotNewline = true
                    · simp only [hr, if_true]
                      simp only [List.length_cons] at hlen ⊢
                      simp [hlen]
                      omega
                    · simp [hr]
                  · intro pos c cs caps; simp
                · simp [hb]
              · simp [ha]
          · intro pos c cs caps hcw
            have := isWordChar_ne_bracket c hcw
            simp [this]
        · have hnone : tagMatch ('[' :: x :: u) = none := by
            unfold tagMatch
            simp only [List.dropWhile_cons_of_neg hx, List.takeWhile_cons_of_neg hx]
            split <;> simp
          simp [tagPattern, Regexp.run, hx, hnone]
    · have : tagMatch (c :: t) = none := by
        unfold tagMatch
        split
        · rename_i heq; simp at heq; exact absurd heq.1 hc
        · rfl
      simp [tagPattern, Regexp.run, hc, this]

theorem tagPattern_findAt_zero (s : GoString) :
    tagPattern.findAt 0 s = tagPattern.run (fun e _ caps => some ((0, 0, e) :: caps)) 0 s [] := by
  cases s with
  | nil => rfl
  | cons c t =>
    rw [Regexp.findAt]
    cases tagPattern.run (fun e _ caps => some ((0, 0, e) :: caps)) 0 (c :: t) [] with
    | none => simpa using tagPattern_findAt_succ t 0
    | some caps => rfl

theorem takeWhile_append_stop (p : Char → Bool) (tag rest : GoString) (c : Char)
    (htag : ∀ x ∈ tag, p x = true) (hc : p c = false) :
    (tag ++ c :: rest).takeWhile p = tag ∧ (tag ++ c :: rest).dropWhile p = c :: rest := by
  induction tag with
  | nil => simp [List.takeWhile, List.dropWhile, hc]
  | cons x tag ih =>
    have hx : p x = true := htag x (List.mem_cons_self _ _)
    have := ih (fun y hy => htag y (List.mem_cons_of_mem _ hy))
    simp [List.takeWhile, List.dropWhile, hx, this]

/-- The strings the pattern matches, and what it captures. -/
theorem tagMatch_eq_some_iff (s tag rest : GoString) :
    tagMatch s = some (tag, rest) ↔
      s = '[' :: (tag ++ ']' :: ' ' :: rest) ∧ tag ≠ [] ∧ (∀ c ∈ tag, isWordChar c = true) ∧
        (∀ c ∈ rest, c ≠ '\n') := by
  constructor
  · intro h
    unfold tagMatch at h
    split at h
    · rename_i t
      split at h
      · rename_i r hd
        split at h
        · rename_i hcond
          simp only [Option.some.injEq, Prod.mk.injEq] at h
          obtain ⟨h1, h2⟩ := h
          subst h2
          refine ⟨?_, ?_, ?_, ?_⟩
          · rw [← h1, ← hd, List.takeWhile_append_dropWhile]
          · rw [← h1]; exact hcond.1
          · intro c hc
            rw [← h1] at hc
            exact (List.mem_takeWhile_imp hc)
          · intro c hc
            have := List.all_eq_true.mp hcond.2 c hc
            simpa [isNotNewline] using this
        · exact absurd h (by simp)
      · exact absurd h (by simp)
    · exact absurd h (by simp)
  · rintro ⟨rfl, hne, hw, hr⟩
    have hstop := takeWhile_append_stop isWordChar tag (' ' :: rest) ']' hw (by decide)
    unfold tagMatch
    simp only [hstop.1, hstop.2]
    have hall : rest.all isNotNewline = true := by
      rw [List.all_eq_true]
      intro c hc
      simpa [isNotNewline] using hr c hc
    simp [hne, hall]

theorem tagPattern_FindStringSubmatch (s : GoString) :
    tagPattern.FindStringSubmatch s
      = match tagMatch s with
        | some (tag, rest) => [s, tag, rest]
        | none => [] := by
  unfold Regexp.FindStringSubmatch
  rw [tagPattern_findAt_zero, tagPattern_run_zero]
  cases h : tagMatch s with
  | none => rfl
  | some tr =>
    obtain ⟨tag, rest⟩ := tr
    obtain ⟨hs, -, -, -⟩ := (tagMatch_eq_some_iff s tag rest).mp h
    have hn : tagPattern.NumSubexp = 2 := by decide
    simp only [hn]
    subst hs
    simp [List.range_succ, List.lookup]
    omega

/-! ## The classifier: proofs -/

theorem summarizeComment_eq (c : AnnotationRenderer) :
    summarizeComment c
      = match tagMatch (normalize (getCommentContents c)) with
        | some (tag, rest) => (tag, rest)
        | none => ([], normalize (getCommentContents c)) := by
  unfold summarizeComment
  simp only []
  rw [tagPattern_FindStringSubmatch]
  unfold normalize
  cases tagMatch (strings_ReplaceAll (strings_TrimSpace (getCommentContents c)) '\r' '\n') with
  | none => simp
  | some tr => simp

theorem getCommentContents_highlight (c : AnnotationRenderer) (h : c.annType = AnnHighLight) :
    getCommentContents c = c.contentString := by
  unfold getCommentContents
  rw [h]
  simp [AnnHighLight, AnnLink, AnnPopup]

theorem getCommentContents_other (c : AnnotationRenderer) (h : c.annType ≠ AnnHighLight) :
    getCommentContents c = [] := by
  unfold getCommentContents
  split
  · rfl
  · simp [h]

theorem hasTagPrefix_iff (s : GoString) :
    hasTagPrefix s = true ↔
      ∃ tag rest : GoString, tag ≠ [] ∧ (∀ c ∈ tag, isWordChar c = true) ∧
        s = '[' :: (tag ++ ']' :: ' ' :: rest) := by
  constructor
  · intro h
    unfold hasTagPrefix at h
    split at h
    · rename_i t
      split at h
      · rename_i r hd
        refine ⟨t.takeWhile isWordChar, r, ?_, ?_, ?_⟩
        · intro he
          simp [he] at h
        · intro c hc
          exact List.mem_takeWhile_imp hc
        · rw [← hd, List.takeWhile_append_dropWhile]
      · exact absurd h (by simp)
    · exact absurd h (by simp)
  · rintro ⟨tag, rest, hne, hw, rfl⟩
    have hstop := takeWhile_append_stop isWordChar tag (' ' :: rest) ']' hw (by decide)
    unfold hasTagPrefix
    simp only [hstop.1, hstop.2]
    cases tag with
    | nil => exact absurd rfl hne
    | cons x t => rfl

theorem tagMatch_eq_none_of_untagged (s : GoString) (h : hasTagPrefix s = false) :
    tagMatch s = none := by
  cases hm : tagMatch s with
  | none => rfl
  | some tr =>
    obtain ⟨tag, rest⟩ := tr
    obtain ⟨hs, hne, hw, -⟩ := (tagMatch_eq_some_iff s tag rest).mp hm
    have : hasTagPrefix s = true := (hasTagPrefix_iff s).mpr ⟨tag, rest, hne, hw, hs⟩
    rw [h] at this
    exact absurd this (by simp)

theorem normalize_no_cr (content : GoString) : '\r' ∉ normalize content := by
  unfold normalize strings_ReplaceAll
  intro h
  obtain ⟨x, -, hx⟩ := List.mem_map.mp h
  by_cases hxr : x = '\r'
  · rw [if_pos hxr] at hx
    exact absurd hx (by decide)
  · rw [if_neg hxr] at hx
    exact hxr hx

/-- C2, as stated, fails: the normalized content `[TAG] a<newline>b` has the
form `[` tag `] ` rest with tag `TAG` and rest `a<newline>b`, yet it is
returned unsplit, because `.` does not match a newline. -/
theorem C2_counterexample :
    normalize "[TAG] a\nb".toList = '[' :: ("TAG".toList ++ ']' :: ' ' :: "a\nb".toList)
    ∧ "TAG".toList ≠ [] ∧ (∀ x ∈ "TAG".toList, isWordChar x = true)
    ∧ summarizeComment ⟨AnnHighLight, "[TAG] a\nb".toList⟩ = ([], "[TAG] a\nb".toList)
    ∧ summarizeComment ⟨AnnHighLight, "[TAG] a\nb".toList⟩ ≠ ("TAG".toList, "a\nb".toList) := by
  refine ⟨by decide, by decide, by decide, by decide, by decide⟩

/-- C2, amended: for a highlight annotation whose normalized content is
`[` tag `] ` rest, with tag a non-empty string of ASCII letters, digits and
underscores and rest any string without a newline, `summarizeComment` returns
exactly (tag, rest). -/
theorem C2_summarizeComment_tagged (c : AnnotationRenderer) (tag rest : GoString)
    (hc : c.annType = AnnHighLight) (htag : tag ≠ [])
    (hw : ∀ x ∈ tag, isWordChar x = true) (hr : ∀ x ∈ rest, x ≠ '\n')
    (hn : normalize c.contentString = '[' :: (tag ++ ']' :: ' ' :: rest)) :
    summarizeComment c = (tag, rest) := by
  rw [summarizeComment_eq, getCommentContents_highlight c hc]
  have hm : tagMatch (normalize c.contentString) = some (tag, rest) :=
    (tagMatch_eq_some_iff _ tag rest).mpr ⟨hn, htag, hw, hr⟩
  rw [hm]

/-- C2, the sample of the specification: `[TAG] rest of text` is split into
`TAG` and `rest of text`. -/
theorem C2_summarizeComment_tagged_witness :
    (⟨AnnHighLight, "[TAG] rest of text".toList⟩ : AnnotationRenderer).annType = AnnHighLight
    ∧ "TAG".toList ≠ [] ∧ (∀ x ∈ "TAG".toList, isWordChar x = true)
    ∧ (∀ x ∈ "rest of text".toList, x ≠ '\n')
    ∧ normalize "[TAG] rest of text".toList
        = '[' :: ("TAG".toList ++ ']' :: ' ' :: "rest of text".toList)
    ∧ summarizeComment ⟨AnnHighLight, "[TAG] rest of text".toList⟩
        = ("TAG".toList, "rest of text".toList) :=
  ⟨rfl, by decide, by decide, by decide, by decide,
    C2_summarizeComment_tagged ⟨AnnHighLight, "[TAG] rest of text".toList⟩ "TAG".toList
      "rest of text".toList rfl (by decide) (by decide) (by decide) (by decide)⟩

/-- C3, as stated, fails: the normalized content `[TAG]  x`, with two spaces
after `]`, does not begin with `[`, word characters, `]` and exactly one
space (the character after that space is another space), yet it is split,
into `TAG` and ` x`: the pattern takes the first space as its separator and
the second as the start of the remainder. -/
theorem C3_counterexample :
    normalize "[TAG]  x".toList = "[TAG]  x".toList
    ∧ (¬ ∃ tag rest : GoString, tag ≠ [] ∧ (∀ x ∈ tag, isWordChar x = true) ∧
        rest.head? ≠ some ' ' ∧
        normalize "[TAG]  x".toList = '[' :: (tag ++ ']' :: ' ' :: rest))
    ∧ summarizeComment ⟨AnnHighLight, "[TAG]  x".toList⟩ = ("TAG".toList, " x".toList)
    ∧ summarizeComment ⟨AnnHighLight, "[TAG]  x".toList⟩
        ≠ ([], normalize "[TAG]  x".toList) := by
  refine ⟨by decide, ?_, by decide, by decide⟩
  rintro ⟨tag, rest, -, hw, hhead, heq⟩
  have hn : normalize "[TAG]  x".toList = '[' :: "TAG]  x".toList := by decide
  rw [hn] at heq
  have ht : "TAG]  x".toList = tag ++ ']' :: ' ' :: rest := (List.cons.inj heq).2
  have hstop := takeWhile_append_stop isWordChar tag (' ' :: rest) ']' hw (by decide)
  rw [← ht] at hstop
  have hd : "TAG]  x".toList.dropWhile isWordChar = "]  x".toList := by decide
  rw [hd] at hstop
  have hrest : rest = " x".toList := by
    have h2 := (List.cons.inj hstop.2).2
    exact ((List.cons.inj h2).2).symm
  apply hhead
  rw [hrest]
  rfl

/-- C3, amended: a highlight annotation whose normalized content does not
begin with `[`, one or more word characters, `]` and a space is not split: the
result is the empty severity and the normalized content.  (The space of the
pattern is the one character after `]`; what follows it, further spaces
included, is the remainder.) -/
theorem C3_summarizeComment_unsplit (c : AnnotationRenderer) (hc : c.annType = AnnHighLight)
    (hno : ¬ ∃ tag rest : GoString, tag ≠ [] ∧ (∀ x ∈ tag, isWordChar x = true) ∧
      normalize c.contentString = '[' :: (tag ++ ']' :: ' ' :: rest)) :
    summarizeComment c = ([], normalize c.contentString) := by
  rw [summarizeComment_eq, getCommentContents_highlight c hc]
  have hp : hasTagPrefix (normalize c.contentString) = false := by
    cases hb : hasTagPrefix (normalize c.contentString) with
    | false => rfl
    | true => exact absurd ((hasTagPrefix_iff _).mp hb) hno
  rw [tagMatch_eq_none_of_untagged _ hp]

/-- C3, the samples of the specification: `[TAG]rest` (no space), `[] rest`
(empty tag) and `prefix [TAG] rest` (bracket not at the start) come back
unsplit.  For comparison, `[TAG]  x` with two spaces does begin with `[TAG]`
and a space, and is split into `TAG` and ` x`. -/
theorem C3_summarizeComment_unsplit_witness :
    summarizeComment ⟨AnnHighLight, "[TAG]rest".toList⟩ = ([], "[TAG]rest".toList)
    ∧ summarizeComment ⟨AnnHighLight, "[] rest".toList⟩ = ([], "[] rest".toList)
    ∧ summarizeComment ⟨AnnHighLight, "prefix [TAG] rest".toList⟩
        = ([], "prefix [TAG] rest".toList)
    ∧ summarizeComment ⟨AnnHighLight, "[TAG]  x".toList⟩ = ("TAG".toList, " x".toList) :=
  ⟨C3_summarizeComment_unsplit ⟨AnnHighLight, "[TAG]rest".toList⟩ rfl
      (fun h => absurd ((hasTagPrefix_iff _).mpr h) (by decide)),
    C3_summarizeComment_unsplit ⟨AnnHighLight, "[] rest".toList⟩ rfl
      (fun h => absurd ((hasTagPrefix_iff _).mpr h) (by decide)),
    C3_summarizeComment_unsplit ⟨AnnHighLight, "prefix [TAG] rest".toList⟩ rfl
      (fun h => absurd ((hasTagPrefix_iff _).mpr h) (by decide)),
    by decide⟩

/-- C4: an annotation of any type other than highlight is classified as
(empty severity, empty body), whatever its content string. -/
theorem C4_summarizeComment_not_highlight (c : AnnotationRenderer)
    (hc : c.annType ≠ AnnHighLight) : summarizeComment c = ([], []) := by
  rw [summarizeComment_eq, getCommentContents_other c hc]
  rfl

/-- C4 on a link, a popup and a text annotation carrying a tagged comment. -/
theorem C4_summarizeComment_not_highlight_witness :
    AnnLink ≠ AnnHighLight ∧ AnnPopup ≠ AnnHighLight ∧ (0 : AnnotationType) ≠ AnnHighLight
    ∧ summarizeComment ⟨AnnLink, "[TAG] rest of text".toList⟩ = ([], [])
    ∧ summarizeComment ⟨AnnPopup, "[TAG] rest of text".toList⟩ = ([], [])
    ∧ summarizeComment ⟨0, "plain".toList⟩ = ([], []) :=
  ⟨by decide, by decide, by decide,
    C4_summarizeComment_not_highlight ⟨AnnLink, "[TAG] rest of text".toList⟩ (by decide),
    C4_summarizeComment_not_highlight ⟨AnnPopup, "[TAG] rest of text".toList⟩ (by decide),
    C4_summarizeComment_not_highlight ⟨0, "plain".toList⟩ (by decide)⟩

/-- C5: for a highlight annotation the text that is matched and split is the
content string trimmed and with every carriage return replaced by a newline:
the result is either (empty severity, normalized content) or a splitting
`[` severity `] ` body of the normalized content; neither returned string
contains a carriage return; and when the normalized content has no bracket
tag at its start, the body is the trimmed content with each carriage return
turned into a newline and nothing else changed. -/
theorem C5_summarizeComment_normalizes (c : AnnotationRenderer) (hc : c.annType = AnnHighLight) :
    (((summarizeComment c).1 = [] ∧ (summarizeComment c).2 = normalize c.contentString)
      ∨ normalize c.contentString
          = '[' :: ((summarizeComment c).1 ++ ']' :: ' ' :: (summarizeComment c).2))
    ∧ '\r' ∉ (summarizeComment c).1 ∧ '\r' ∉ (summarizeComment c).2
    ∧ (hasTagPrefix (normalize c.contentString) = false →
        summarizeComment c
          = ([], (strings_TrimSpace c.contentString).map
                  (fun x => if x = '\r' then '\n' else x))) := by
  have hcr := normalize_no_cr c.contentString
  rw [summarizeComment_eq, getCommentContents_highlight c hc]
  cases hm : tagMatch (normalize c.contentString) with
  | none =>
    refine ⟨Or.inl ⟨rfl, rfl⟩, by simp, hcr, fun _ => rfl⟩
  | some tr =>
    obtain ⟨tag, rest⟩ := tr
    obtain ⟨hs, hne, hw, hr⟩ := (tagMatch_eq_some_iff _ tag rest).mp hm
    refine ⟨Or.inr hs, ?_, ?_, ?_⟩
    · intro hmem
      apply hcr
      rw [hs]
      simp [hmem]
    · intro hmem
      apply hcr
      rw [hs]
      simp [hmem]
    · intro hp
      rw [tagMatch_eq_none_of_untagged _ hp] at hm
      exact absurd hm (by simp)

/-- C5, the sample of the specification: the content `a<CR>b` is classified
as (empty severity, `a<newline>b`). -/
theorem C5_summarizeComment_normalizes_witness :
    (⟨AnnHighLight, "a\rb".toList⟩ : AnnotationRenderer).annType = AnnHighLight
    ∧ summarizeComment ⟨AnnHighLight, "a\rb".toList⟩ = ([], "a\nb".toList)
    ∧ '\r' ∉ (summarizeComment ⟨AnnHighLight, "a\rb".toList⟩).2 :=
  ⟨rfl, by decide,
    (C5_summarizeComment_normalizes ⟨AnnHighLight, "a\rb".toList⟩ rfl).2.2.1⟩

/-! ## Sorting: proofs -/


theorem collect_eq {V : Type} (i : List V) : collect i = i := by
  unfold collect
  have h : ∀ (l acc : List V), l.foldl (fun vs v => vs ++ [v]) acc = acc ++ l := by
    intro l
    induction l with
    | nil => simp
    | cons x l ih => intro acc; simp [ih]
  simpa using h i []

theorem insertLeftward_perm (x : Int) (done : List Int) :
    (insertLeftward (fun a b => decide (a < b)) x done).Perm (x :: done) := by
  induction done with
  | nil => simp [insertLeftward]
  | cons y done ih =>
    unfold insertLeftward
    by_cases h : x < y
    · simp only [h, decide_True, if_true]
      exact (List.Perm.cons y ih).trans (List.Perm.swap x y done)
    · simp [h]

theorem insertLeftward_sorted (x : Int) (done : List Int) (hs : done.Sorted (· ≥ ·)) :
    (insertLeftward (fun a b => decide (a < b)) x done).Sorted (· ≥ ·) := by
  induction done with
  | nil => simp [insertLeftward]
  | cons y done ih =>
    unfold insertLeftward
    have hs' := List.sorted_cons.mp hs
    by_cases h : x < y
    · simp only [h, decide_True, if_true]
      refine List.sorted_cons.mpr ⟨?_, ih hs'.2⟩
      intro b hb
      have hb' := (insertLeftward_perm x done).subset hb
      rcases List.mem_cons.mp hb' with rfl | hb'
      · exact le_of_lt h
      · exact hs'.1 b hb'
    · simp only [h, decide_False]
      refine List.sorted_cons.mpr ⟨?_, hs⟩
      intro b hb
      rcases List.mem_cons.mp hb with rfl | hb
      · exact not_lt.mp h
      · exact le_trans (hs'.1 b hb) (not_lt.mp h)

theorem foldl_insertLeftward (data acc : List Int) (hs : acc.Sorted (· ≥ ·)) :
    (data.foldl (fun done x => insertLeftward (fun a b => decide (a < b)) x done) acc).Sorted (· ≥ ·)
    ∧ (data.foldl (fun done x => insertLeftward (fun a b => decide (a < b)) x done) acc).Perm
        (data ++ acc) := by
  induction data generalizing acc with
  | nil => exact ⟨hs, List.Perm.refl _⟩
  | cons x data ih =>
    obtain ⟨h1, h2⟩ := ih (insertLeftward (fun a b => decide (a < b)) x acc)
      (insertLeftward_sorted x acc hs)
    refine ⟨h1, h2.trans ?_⟩
    have := insertLeftward_perm x acc
    exact (List.Perm.append_left data this).trans (List.perm_middle)

theorem sorted_sorted (i : List Int) : (sorted i).Sorted (· ≤ ·) := by
  unfold sorted sort_Slice
  rw [collect_eq]
  have := (foldl_insertLeftward i [] List.sorted_nil).1
  exact List.pairwise_reverse.mpr this

theorem sorted_perm (i : List Int) : (sorted i).Perm i := by
  unfold sorted sort_Slice
  rw [collect_eq]
  have := (foldl_insertLeftward i [] List.sorted_nil).2
  simpa using (List.reverse_perm _).trans this

/-- Whatever algorithm sorts the slice, the result is the same. -/
theorem sort_Slice_unique (i l : List Int) (hp : l.Perm i) (hs : l.Sorted (· ≤ ·)) :
    sorted i = l :=
  List.eq_of_perm_of_sorted ((sorted_perm i).trans hp.symm) (sorted_sorted i) hs

theorem sorted_congr (i j : List Int) (h : i.Perm j) : sorted i = sorted j :=
  sort_Slice_unique i (sorted j) ((sorted_perm j).trans h.symm) (sorted_sorted j)

theorem sorted_strict (i : List Int) (h : i.Nodup) : (sorted i).Sorted (· < ·) := by
  have hs := sorted_sorted i
  have hn : (sorted i).Nodup := (sorted_perm i).nodup_iff.mpr h
  exact (List.Sorted.lt_of_le hs hn)


/-! ## The driver loops: proofs -/

theorem renderEntries_eq_flatMap (es : List Entry) :
    renderEntries es = es.flatMap fun e => if hasBody e then block e else [] := by
  unfold renderEntries
  induction es with
  | nil => rfl
  | cons e es ih =>
    by_cases h : hasBody e = true
    · simp [List.filter_cons, h, ih]
    · simp [List.filter_cons, h, ih]

theorem renderEntries_append (es fs : List Entry) :
    renderEntries (es ++ fs) = renderEntries es ++ renderEntries fs := by
  simp [renderEntries]

/-- One level of the nested loops: a loop over keys that appends, for each key
present, the text of its value. -/
theorem foldl_keys_getD {V : Type} (m : GoMap V) (zero : V)
    (f : Int → V → GoString → GoString) (g : Int → V → GoString)
    (hf : ∀ k v out, f k v out = out ++ g k v) (hz : ∀ k, g k zero = [])
    (keys : List Int) (out : GoString) :
    keys.foldl (fun out k => f k ((m.get k).getD zero) out) out
      = out ++ (keys.filterMap fun k => (m.get k).map fun v => (k, v)).flatMap
          fun kv => g kv.1 kv.2 := by
  induction keys generalizing out with
  | nil => simp
  | cons k keys ih =>
    rw [List.foldl_cons, ih, hf]
    cases hk : m.get k with
    | none => simp [List.filterMap_cons, hk, hz]
    | some v => simp [List.filterMap_cons, hk, List.append_assoc]

theorem renderEntries_cons (e : Entry) (es : List Entry) :
    renderEntries (e :: es)
      = (if (summarizeComment e.ann).2 ≠ [] then
          markdownizeComment e.page (summarizeComment e.ann).1 (summarizeComment e.ann).2
         else []) ++ renderEntries es := by
  rw [renderEntries_eq_flatMap, renderEntries_eq_flatMap, List.flatMap_cons]
  congr 1
  unfold hasBody block
  cases h : (summarizeComment e.ann).2 <;> simp

theorem foldl_keys_match (m : GoMap AnnotationRenderer) (page kind : Int)
    (keys : List Int) (out : GoString) :
    keys.foldl (fun stdout commentID =>
        match m.get commentID with
        | some c =>
          let (level, comment) := summarizeComment c
          if comment ≠ [] then stdout ++ markdownizeComment page level comment else stdout
        | none => stdout) out
      = out ++ renderEntries
          ((keys.filterMap fun k => (m.get k).map fun v => (k, v)).map
            fun ia => ⟨page, kind, ia.1, ia.2⟩) := by
  induction keys generalizing out with
  | nil => simp [renderEntries]
  | cons k keys ih =>
    rw [List.foldl_cons, ih]
    cases hk : m.get k with
    | none => simp [List.filterMap_cons, hk]
    | some c =>
      simp only [List.filterMap_cons, hk, Option.map_some', List.map_cons, renderEntries_cons]
      by_cases hb : (summarizeComment c).2 = []
      · simp [hb]
      · simp [hb, List.append_assoc]

theorem renderEntries_flatMap {α : Type} (l : List α) (F : α → List Entry) :
    renderEntries (l.flatMap F) = l.flatMap fun x => renderEntries (F x) := by
  induction l with
  | nil => rfl
  | cons x l ih => simp [List.flatMap_cons, renderEntries_append, ih]

theorem ascending_nil {V : Type} : GoMap.ascending ([] : GoMap V) = [] := by
  simp [GoMap.ascending, maps_Keys, sorted, collect, sort_Slice]

theorem scrapeComments_eq (page kind : Int) (annot : Annot) (out : GoString) :
    (sorted (maps_Keys annot.Map)).foldl (fun stdout commentID =>
        match annot.Map.get commentID with
        | some c =>
          let (level, comment) := summarizeComment c
          if comment ≠ [] then stdout ++ markdownizeComment page level comment else stdout
        | none => stdout) out
      = out ++ renderEntries
          ((GoMap.ascending annot.Map).map fun ia => ⟨page, kind, ia.1, ia.2⟩) :=
  foldl_keys_match annot.Map page kind _ out

theorem scrapeKinds_eq (page : Int) (pageAnnotations : PgAnnots) (out : GoString) :
    (sorted (maps_Keys pageAnnotations)).foldl (fun stdout kind =>
        (sorted (maps_Keys ((pageAnnotations.get kind).getD ⟨[]⟩).Map)).foldl
          (fun stdout commentID =>
            match ((pageAnnotations.get kind).getD ⟨[]⟩).Map.get commentID with
            | some c =>
              let (level, comment) := summarizeComment c
              if comment ≠ [] then stdout ++ markdownizeComment page level comment else stdout
            | none => stdout) stdout) out
      = out ++ renderEntries
          ((GoMap.ascending pageAnnotations).flatMap fun ka =>
            (GoMap.ascending ka.2.Map).map fun ia => ⟨page, ka.1, ia.1, ia.2⟩) := by
  have h := foldl_keys_getD pageAnnotations ⟨[]⟩
    (fun _ annot out =>
      (sorted (maps_Keys annot.Map)).foldl (fun stdout commentID =>
        match annot.Map.get commentID with
        | some c =>
          let (level, comment) := summarizeComment c
          if comment ≠ [] then stdout ++ markdownizeComment page level comment else stdout
        | none => stdout) out)
    (fun kind annot =>
      renderEntries ((GoMap.ascending annot.Map).map fun ia => ⟨page, kind, ia.1, ia.2⟩))
    (fun k v out => scrapeComments_eq page k v out)
    (fun k => by simp [ascending_nil, renderEntries])
    (sorted (maps_Keys pageAnnotations)) out
  rw [renderEntries_flatMap]
  exact h

theorem scrapeLoop_eq (annotations : Annotations) (stdout : GoString) :
    scrapeLoop annotations stdout = stdout ++ renderEntries (orderedEntries annotations) := by
  have h := foldl_keys_getD annotations []
    (fun page pageAnnotations out =>
      (sorted (maps_Keys pageAnnotations)).foldl (fun stdout kind =>
        (sorted (maps_Keys ((pageAnnotations.get kind).getD ⟨[]⟩).Map)).foldl
          (fun stdout commentID =>
            match ((pageAnnotations.get kind).getD ⟨[]⟩).Map.get commentID with
            | some c =>
              let (level, comment) := summarizeComment c
              if comment ≠ [] then stdout ++ markdownizeComment page level comment else stdout
            | none => stdout) stdout) out)
    (fun page pageAnnotations =>
      renderEntries ((GoMap.ascending pageAnnotations).flatMap fun ka =>
        (GoMap.ascending ka.2.Map).map fun ia => ⟨page, ka.1, ia.1, ia.2⟩))
    (fun k v out => scrapeKinds_eq k v out)
    (fun k => by simp [ascending_nil, renderEntries])
    (sorted (maps_Keys annotations)) stdout
  unfold orderedEntries
  rw [renderEntries_flatMap]
  exact h


theorem get_cons {V : Type} (k k1 : Int) (v : V) (m : GoMap V) :
    GoMap.get ((k1, v) :: m) k = if k = k1 then some v else GoMap.get m k := by
  unfold GoMap.get
  by_cases h : k = k1
  · subst h; simp [List.lookup]
  · have : (k == k1) = false := by simpa using h
    simp [List.lookup, this, h]

theorem get_eq_some_of_mem {V : Type} (m : GoMap V) (h : GoMap.WF m) (k : Int) (v : V)
    (hm : (k, v) ∈ m) : GoMap.get m k = some v := by
  induction m with
  | nil => cases hm
  | cons kv m ih =>
    obtain ⟨k1, v1⟩ := kv
    unfold GoMap.WF at h
    simp only [List.map_cons, List.nodup_cons] at h
    rw [get_cons]
    rcases List.mem_cons.mp hm with heq | hmt
    · cases heq; simp
    · have hne : k ≠ k1 := by
        rintro rfl
        exact h.1 (List.mem_map.mpr ⟨(k, v), hmt, rfl⟩)
      rw [if_neg hne]
      exact ih h.2 hmt

theorem mem_of_get_eq_some {V : Type} (m : GoMap V) (k : Int) (v : V)
    (hg : GoMap.get m k = some v) : (k, v) ∈ m := by
  induction m with
  | nil => simp [GoMap.get, List.lookup] at hg
  | cons kv m ih =>
    obtain ⟨k1, v1⟩ := kv
    rw [get_cons] at hg
    by_cases h : k = k1
    · rw [if_pos h] at hg
      cases hg
      subst h
      exact List.mem_cons_self _ _
    · rw [if_neg h] at hg
      exact List.mem_cons_of_mem _ (ih hg)

theorem get_isSome_of_mem_keys {V : Type} (m : GoMap V) (k : Int) (hk : k ∈ maps_Keys m) :
    (GoMap.get m k).isSome = true := by
  induction m with
  | nil => cases hk
  | cons kv m ih =>
    obtain ⟨k1, v1⟩ := kv
    rw [get_cons]
    by_cases h : k = k1
    · simp [h]
    · rw [if_neg h]
      apply ih
      unfold maps_Keys at hk ⊢
      simp only [List.map_cons, List.mem_cons] at hk
      rcases hk with hk | hk
      · exact absurd hk h
      · exact hk

/-- The innermost index expression of `scrapeFile` always finds its key. -/
theorem get_isSome_of_mem_sorted_keys {V : Type} (m : GoMap V) (k : Int)
    (hk : k ∈ sorted (maps_Keys m)) : (GoMap.get m k).isSome = true :=
  get_isSome_of_mem_keys m k ((sorted_perm _).subset hk)

theorem mem_ascending {V : Type} (m : GoMap V) (h : GoMap.WF m) (kv : Int × V) :
    kv ∈ GoMap.ascending m ↔ kv ∈ m := by
  obtain ⟨k, v⟩ := kv
  unfold GoMap.ascending
  rw [List.mem_filterMap]
  constructor
  · rintro ⟨k1, -, hk1⟩
    cases hg : GoMap.get m k1 with
    | none => simp [hg] at hk1
    | some v1 =>
      simp only [hg, Option.map_some', Option.some.injEq, Prod.mk.injEq] at hk1
      obtain ⟨rfl, rfl⟩ := hk1
      exact mem_of_get_eq_some m _ _ hg
  · intro hm
    refine ⟨k, ?_, ?_⟩
    · exact (sorted_perm _).symm.subset (List.mem_map.mpr ⟨(k, v), hm, rfl⟩)
    · rw [get_eq_some_of_mem m h k v hm]; rfl

theorem ascending_keys {V : Type} (m : GoMap V) :
    (GoMap.ascending m).map Prod.fst = sorted (maps_Keys m) := by
  unfold GoMap.ascending
  have h : ∀ ks : List Int, (∀ k ∈ ks, (GoMap.get m k).isSome = true) →
      (ks.filterMap fun k => (GoMap.get m k).map fun v => (k, v)).map Prod.fst = ks := by
    intro ks
    induction ks with
    | nil => intro _; rfl
    | cons k ks ih =>
      intro hks
      have hk := hks k (List.mem_cons_self _ _)
      obtain ⟨v, hv⟩ := Option.isSome_iff_exists.mp hk
      simp only [List.filterMap_cons, hv, Option.map_some', List.map_cons]
      rw [ih (fun k1 hk1 => hks k1 (List.mem_cons_of_mem _ hk1))]
  exact h _ (fun k hk => get_isSome_of_mem_sorted_keys m k hk)

theorem ascending_sorted {V : Type} (m : GoMap V) (h : GoMap.WF m) :
    (GoMap.ascending m).Pairwise fun a b => a.1 < b.1 := by
  have hs := sorted_strict (maps_Keys m) h
  rw [← ascending_keys] at hs
  exact List.pairwise_map.mp hs

theorem ascending_WF {V : Type} (m : GoMap V) (h : GoMap.WF m) :
    GoMap.WF (GoMap.ascending m) := by
  unfold GoMap.WF
  rw [ascending_keys]
  exact (sorted_perm _).nodup_iff.mpr h

theorem nodup_of_WF {V : Type} (m : GoMap V) (h : GoMap.WF m) : m.Nodup :=
  List.Nodup.of_map Prod.fst h

theorem ascending_perm {V : Type} (m : GoMap V) (h : GoMap.WF m) :
    (GoMap.ascending m).Perm m :=
  (List.perm_ext_iff_of_nodup (nodup_of_WF _ (ascending_WF m h)) (nodup_of_WF m h)).mpr
    (fun kv => mem_ascending m h kv)


theorem entry_lt_asymm {a b : Entry} (hab : Entry.lt a b) (hba : Entry.lt b a) : False := by
  unfold Entry.lt at hab hba
  omega

theorem WF_of_mem_page (annotations : Annotations) (h : Annotations.WF annotations)
    (pa : Int × PgAnnots) (hpa : pa ∈ annotations) : GoMap.WF pa.2 :=
  (h.2 pa hpa).1

theorem WF_of_mem_kind (annotations : Annotations) (h : Annotations.WF annotations)
    (pa : Int × PgAnnots) (hpa : pa ∈ annotations) (ka : Int × Annot) (hka : ka ∈ pa.2) :
    GoMap.WF ka.2.Map :=
  (h.2 pa hpa).2 ka hka

theorem orderedEntries_perm (annotations : Annotations) (h : Annotations.WF annotations) :
    (orderedEntries annotations).Perm (entries annotations) := by
  unfold orderedEntries entries
  refine (List.Perm.flatMap_right _ (ascending_perm annotations h.1)).trans ?_
  refine List.Perm.flatMap_left _ (fun pa hpa => ?_)
  refine (List.Perm.flatMap_right _ (ascending_perm pa.2 (WF_of_mem_page _ h pa hpa))).trans ?_
  refine List.Perm.flatMap_left _ (fun ka hka => ?_)
  exact List.Perm.map _ (ascending_perm ka.2.Map (WF_of_mem_kind _ h pa hpa ka hka))

theorem orderedEntries_sorted (annotations : Annotations) (h : Annotations.WF annotations) :
    (orderedEntries annotations).Sorted Entry.lt := by
  unfold orderedEntries List.Sorted
  rw [List.pairwise_flatMap]
  constructor
  · intro pa hpa
    have hpa' : pa ∈ annotations := (mem_ascending annotations h.1 pa).mp hpa
    have hw := WF_of_mem_page _ h pa hpa'
    rw [List.pairwise_flatMap]
    constructor
    · intro ka hka
      have hka' : ka ∈ pa.2 := (mem_ascending pa.2 hw ka).mp hka
      have hwk := WF_of_mem_kind _ h pa hpa' ka hka'
      rw [List.pairwise_map]
      refine (ascending_sorted ka.2.Map hwk).imp ?_
      intro a b hab
      exact Or.inr ⟨rfl, Or.inr ⟨rfl, hab⟩⟩
    · refine (ascending_sorted pa.2 hw).imp ?_
      intro a b hab x hx y hy
      obtain ⟨ia, -, rfl⟩ := List.mem_map.mp hx
      obtain ⟨ib, -, rfl⟩ := List.mem_map.mp hy
      exact Or.inr ⟨rfl, Or.inl hab⟩
  · refine (ascending_sorted annotations h.1).imp ?_
    intro a b hab x hx y hy
    obtain ⟨ka, -, hx⟩ := List.mem_flatMap.mp hx
    obtain ⟨kb, -, hy⟩ := List.mem_flatMap.mp hy
    obtain ⟨ia, -, rfl⟩ := List.mem_map.mp hx
    obtain ⟨ib, -, rfl⟩ := List.mem_map.mp hy
    exact Or.inl hab

/-- The output of the loops is the rendering of the annotations in ascending
order of page, kind and identifier, however that order is arrived at. -/
theorem scrapeLoop_eq_of_sorted_perm (annotations : Annotations)
    (h : Annotations.WF annotations) (es : List Entry) (hp : es.Perm (entries annotations))
    (hs : es.Sorted Entry.lt) (stdout : GoString) :
    scrapeLoop annotations stdout = stdout ++ renderEntries es := by
  rw [scrapeLoop_eq]
  have heq : orderedEntries annotations = es :=
    @List.eq_of_perm_of_sorted _ Entry.lt ⟨fun a b hab hba => (entry_lt_asymm hab hba).elim⟩ _ _
      ((orderedEntries_perm annotations h).trans hp.symm) (orderedEntries_sorted annotations h) hs
  rw [heq]


/-! ## The driver loops: ordering, enumeration and empty bodies -/

theorem scrapeFile_ok (w : World) (filename : String) (f : Nat) (annotations : Annotations)
    (p : Proc) (ho : w.osOpen filename = .ok f) (ha : w.pdfcpuAnnotations f = .ok annotations) :
    (scrapeFile w filename p).1 = none
    ∧ (scrapeFile w filename p).2.stdout = scrapeLoop annotations p.stdout := by
  constructor <;> simp [scrapeFile, ho, ha]

/-- C6: for annotations given as a map page -> kind -> id -> annotation (each
map with distinct keys), the annotations have an arrangement in ascending
order of page, then kind, then identifier, and the text the loops of
`scrapeFile` add to standard output is exactly the concatenation, over any
such arrangement, of `markdownizeComment(page, level, body)` with
`(level, body) = summarizeComment(annotation)`, the annotations with an empty
body skipped; that is what `scrapeFile` prints for a file from which these
annotations are extracted. -/
theorem C6_scrapeLoop_ascending (annotations : Annotations) (stdout : GoString)
    (h : Annotations.WF annotations) :
    (∃ es : List Entry, es.Perm (entries annotations) ∧ es.Sorted Entry.lt)
    ∧ (∀ es : List Entry, es.Perm (entries annotations) → es.Sorted Entry.lt →
        scrapeLoop annotations stdout
          = stdout ++ ((es.filter hasBody).map fun e =>
              markdownizeComment e.page (summarizeComment e.ann).1 (summarizeComment e.ann).2).flatten)
    ∧ ∀ (w : World) (filename : String) (f : Nat) (p : Proc),
        w.osOpen filename = .ok f → w.pdfcpuAnnotations f = .ok annotations →
        p.stdout = stdout →
        (scrapeFile w filename p).2.stdout = scrapeLoop annotations stdout :=
  ⟨⟨orderedEntries annotations, orderedEntries_perm annotations h,
      orderedEntries_sorted annotations h⟩,
    fun es hp hs => scrapeLoop_eq_of_sorted_perm annotations h es hp hs stdout,
    fun w filename f p ho ha hp => hp ▸ (scrapeFile_ok w filename f annotations p ho ha).2⟩

/-- C6 on the sample with pages 2, 10 and 1: the blocks of page 1 come first,
then those of page 2, then those of page 10, and within a page the comments
come by ascending identifier. -/
theorem C6_scrapeLoop_ascending_witness :
    Annotations.WF sampleAnnotations
    ∧ (∀ es : List Entry, es.Perm (entries sampleAnnotations) → es.Sorted Entry.lt →
          scrapeLoop sampleAnnotations []
            = [] ++ ((es.filter hasBody).map fun e =>
                markdownizeComment e.page (summarizeComment e.ann).1
                  (summarizeComment e.ann).2).flatten)
    ∧ scrapeLoop sampleAnnotations []
        = ("- [ ] Page 1\n    > one-a\n- [ ] Page 1\n    > one-b\n    > more\n" ++
           "- [ ] Page 2 (MINOR)\n    > two-a\n- [ ] Page 2\n    > two-b\n" ++
           "- [ ] Page 10\n    > ten-a\n- [ ] Page 10\n    > ten-b\n").toList
    ∧ (scrapeFile sampleWorld "valid.pdf" Proc.start).2.stdout = scrapeLoop sampleAnnotations [] :=
  ⟨by decide, (C6_scrapeLoop_ascending sampleAnnotations [] (by decide)).2.1, by decide,
    (C6_scrapeLoop_ascending sampleAnnotations [] (by decide)).2.2 sampleWorld "valid.pdf" 3
      Proc.start rfl rfl rfl⟩

theorem forall2_flatMap_perm {α β γ : Type} (P : α → β → Prop) (F : α → List γ)
    (G : β → List γ) (l1 : List α) (l2 : List β) (h : List.Forall₂ P l1 l2)
    (hFG : ∀ a b, a ∈ l1 → P a b → (F a).Perm (G b)) : (l1.flatMap F).Perm (l2.flatMap G) := by
  induction h with
  | nil => exact List.Perm.refl _
  | cons hab _ ih =>
    rw [List.flatMap_cons, List.flatMap_cons]
    exact List.Perm.append (hFG _ _ (List.mem_cons_self _ _) hab)
      (ih (fun a b ha hP => hFG a b (List.mem_cons_of_mem _ ha) hP))

theorem forall2_exists_left {α β : Type} (P : α → β → Prop) (l1 : List α) (l2 : List β)
    (h : List.Forall₂ P l1 l2) (b : β) (hb : b ∈ l2) : ∃ a ∈ l1, P a b := by
  induction h with
  | nil => cases hb
  | cons hab _ ih =>
    rcases List.mem_cons.mp hb with rfl | hb
    · exact ⟨_, List.mem_cons_self _ _, hab⟩
    · obtain ⟨a, ha, hP⟩ := ih hb
      exact ⟨a, List.mem_cons_of_mem _ ha, hP⟩

theorem forall2_keys {V : Type} (R : V → V → Prop) (m m2 : GoMap V)
    (h : List.Forall₂ (fun a b => a.1 = b.1 ∧ R a.2 b.2) m m2) :
    m.map Prod.fst = m2.map Prod.fst := by
  induction h with
  | nil => rfl
  | cons hab _ ih => simp [hab.1, ih]

theorem reenumerated_flatMap_perm {V γ : Type} (R : V → V → Prop) (F G : Int × V → List γ)
    (m1 m2 : GoMap V) (h : Reenumerated R m1 m2)
    (hFG : ∀ a b, a ∈ m1 → a.1 = b.1 → R a.2 b.2 → (F a).Perm (G b)) :
    (m1.flatMap F).Perm (m2.flatMap G) := by
  obtain ⟨m, hp, hf⟩ := h
  refine (List.Perm.flatMap_right F hp).trans ?_
  exact forall2_flatMap_perm _ F G m m2 hf
    (fun a b ha hP => hFG a b (hp.symm.subset ha) hP.1 hP.2)

theorem reenumerated_WF {V : Type} (R : V → V → Prop) (m1 m2 : GoMap V)
    (h : Reenumerated R m1 m2) (hw : GoMap.WF m1) : GoMap.WF m2 := by
  obtain ⟨m, hp, hf⟩ := h
  unfold GoMap.WF at hw ⊢
  rw [← forall2_keys R m m2 hf]
  exact (hp.map Prod.fst).nodup_iff.mp hw

theorem reenumerated_exists_left {V : Type} (R : V → V → Prop) (m1 m2 : GoMap V)
    (h : Reenumerated R m1 m2) (b : Int × V) (hb : b ∈ m2) :
    ∃ a ∈ m1, a.1 = b.1 ∧ R a.2 b.2 := by
  obtain ⟨m, hp, hf⟩ := h
  obtain ⟨a, ha, hP⟩ := forall2_exists_left _ m m2 hf b hb
  exact ⟨a, hp.symm.subset ha, hP⟩

theorem sameAnnotations_WF (a1 a2 : Annotations) (h : SameAnnotations a1 a2)
    (hw : Annotations.WF a1) : Annotations.WF a2 := by
  refine ⟨reenumerated_WF _ a1 a2 h hw.1, fun pb hpb => ?_⟩
  obtain ⟨pa, hpa, -, hR⟩ := reenumerated_exists_left _ a1 a2 h pb hpb
  refine ⟨reenumerated_WF _ pa.2 pb.2 hR (WF_of_mem_page a1 hw pa hpa), fun kb hkb => ?_⟩
  obtain ⟨ka, hka, -, hK⟩ := reenumerated_exists_left _ pa.2 pb.2 hR kb hkb
  have := WF_of_mem_kind a1 hw pa hpa ka hka
  unfold GoMap.WF at this ⊢
  exact (hK.map Prod.fst).nodup_iff.mp this

theorem sameAnnotations_entries_perm (a1 a2 : Annotations) (h : SameAnnotations a1 a2) :
    (entries a1).Perm (entries a2) := by
  unfold entries
  refine reenumerated_flatMap_perm _ _ _ a1 a2 h (fun pa pb _ hp hR => ?_)
  refine reenumerated_flatMap_perm _ _ _ pa.2 pb.2 hR (fun ka kb _ hk hK => ?_)
  rw [hp, hk]
  exact List.Perm.map _ hK

/-- C7: the text the loops of `scrapeFile` emit does not depend on the order
in which the maps enumerate their keys: two enumerations of the same mapping
page -> kind -> id -> annotation, the keys of each level in any order, give
the same output. -/
theorem C7_scrapeLoop_order_independent (a1 a2 : Annotations) (stdout : GoString)
    (hw : Annotations.WF a1) (h : SameAnnotations a1 a2) :
    scrapeLoop a1 stdout = scrapeLoop a2 stdout := by
  have hp := orderedEntries_perm a1 hw
  have hs := orderedEntries_sorted a1 hw
  rw [scrapeLoop_eq_of_sorted_perm a1 hw _ hp hs,
    scrapeLoop_eq_of_sorted_perm a2 (sameAnnotations_WF a1 a2 h hw) _
      (hp.trans (sameAnnotations_entries_perm a1 a2 h)) hs]

theorem sample_same : SameAnnotations sampleAnnotations sampleReordered := by
  refine ⟨sampleAnnotations.rotate 2, (List.rotate_perm _ _).symm, ?_⟩
  refine List.Forall₂.cons ⟨rfl, ?_⟩ (List.Forall₂.cons ⟨rfl, ?_⟩
    (List.Forall₂.cons ⟨rfl, ?_⟩ List.Forall₂.nil))
  · refine ⟨[(AnnHighLight, ⟨[(9, highlight "one-b\rmore"), (2, highlight "  "),
        (5, highlight "one-a")]⟩), (AnnPopup, ⟨[(3, ⟨AnnPopup, "popup".toList⟩)]⟩)],
      by decide, ?_⟩
    exact List.Forall₂.cons ⟨rfl, by decide⟩ (List.Forall₂.cons ⟨rfl, by decide⟩ List.Forall₂.nil)
  · refine ⟨_, List.Perm.refl _, ?_⟩
    exact List.Forall₂.cons ⟨rfl, by decide⟩ List.Forall₂.nil
  · refine ⟨[(AnnLink, ⟨[(3, ⟨AnnLink, "https://example.org".toList⟩)]⟩),
        (AnnHighLight, ⟨[(6, highlight "ten-b"), (1, highlight "ten-a")]⟩)], by decide, ?_⟩
    exact List.Forall₂.cons ⟨rfl, by decide⟩ (List.Forall₂.cons ⟨rfl, by decide⟩ List.Forall₂.nil)

/-- C7 on the sample annotations and their reordering: both enumerations
print the same text. -/
theorem C7_scrapeLoop_order_independent_witness :
    Annotations.WF sampleAnnotations ∧ SameAnnotations sampleAnnotations sampleReordered
    ∧ sampleAnnotations ≠ sampleReordered
    ∧ scrapeLoop sampleAnnotations [] = scrapeLoop sampleReordered [] :=
  ⟨by decide, sample_same, by decide,
    C7_scrapeLoop_order_independent sampleAnnotations sampleReordered [] (by decide) sample_same⟩


theorem entries_pruneEmpty (annotations : Annotations) :
    entries (pruneEmpty annotations) = (entries annotations).filter hasBody := by
  unfold entries pruneEmpty
  rw [List.flatMap_map, List.filter_flatMap]
  congr 1
  funext pa
  simp only []
  rw [List.flatMap_map, List.filter_flatMap]
  congr 1
  funext ka
  simp only []
  rw [List.filter_map]
  rfl

theorem keys_map_snd {V W : Type} (m : GoMap V) (f : Int × V → W) :
    (m.map fun kv => (kv.1, f kv)).map Prod.fst = m.map Prod.fst := by
  rw [List.map_map]
  rfl

theorem WF_filter {V : Type} (m : GoMap V) (p : Int × V → Bool) (h : GoMap.WF m) :
    GoMap.WF (m.filter p) := by
  unfold GoMap.WF at h ⊢
  exact List.Nodup.sublist ((List.filter_sublist m).map Prod.fst) h

theorem pruneEmpty_WF (annotations : Annotations) (h : Annotations.WF annotations) :
    Annotations.WF (pruneEmpty annotations) := by
  constructor
  · unfold pruneEmpty GoMap.WF
    rw [keys_map_snd]
    exact h.1
  · intro pb hpb
    unfold pruneEmpty at hpb
    obtain ⟨pa, hpa, rfl⟩ := List.mem_map.mp hpb
    constructor
    · unfold GoMap.WF
      simp only []
      rw [keys_map_snd]
      exact WF_of_mem_page annotations h pa hpa
    · intro kb hkb
      obtain ⟨ka, hka, rfl⟩ := List.mem_map.mp hkb
      exact WF_filter _ _ (WF_of_mem_kind annotations h pa hpa ka hka)

theorem renderEntries_filter (es : List Entry) :
    renderEntries (es.filter hasBody) = renderEntries es := by
  unfold renderEntries
  rw [List.filter_filter]
  simp

theorem renderEntries_eq_nil (es : List Entry)
    (h : ∀ e ∈ es, (summarizeComment e.ann).2 = []) : renderEntries es = [] := by
  unfold renderEntries
  have : es.filter hasBody = [] := by
    rw [List.filter_eq_nil_iff]
    intro e he
    simp [hasBody, h e he]
  rw [this]
  rfl


theorem strings_TrimSpace_eq_nil_iff (s : GoString) :
    strings_TrimSpace s = [] ↔ ∀ c ∈ s, unicode_IsSpace c = true := by
  unfold strings_TrimSpace
  rw [List.rdropWhile_eq_nil_iff]
  constructor
  · intro h
    rw [← List.dropWhile_eq_nil_iff]
    cases hd : List.dropWhile unicode_IsSpace s with
    | nil => rfl
    | cons x t =>
      have hx : unicode_IsSpace x = true := h x (by rw [hd]; exact List.mem_cons_self _ _)
      have hne : List.dropWhile unicode_IsSpace s ≠ [] := by rw [hd]; simp
      have := List.head_dropWhile_not unicode_IsSpace s hne
      simp only [hd, List.head_cons] at this
      rw [hx] at this
      exact absurd this (by simp)
  · intro h x hx
    exact h x ((List.dropWhile_sublist _).subset hx)

theorem normalize_eq_nil_iff (s : GoString) :
    normalize s = [] ↔ ∀ c ∈ s, unicode_IsSpace c = true := by
  unfold normalize strings_ReplaceAll
  rw [List.map_eq_nil_iff]
  exact strings_TrimSpace_eq_nil_iff s

theorem normalize_getLast_not_space (s : GoString) (h : normalize s ≠ []) :
    (normalize s).getLast h ≠ ' ' := by
  have ht : strings_TrimSpace s ≠ [] := by
    intro h0
    apply h
    unfold normalize strings_ReplaceAll
    rw [h0]
    rfl
  have hlast : ¬ unicode_IsSpace ((strings_TrimSpace s).getLast ht) = true :=
    List.rdropWhile_last_not unicode_IsSpace (s.dropWhile unicode_IsSpace) ht
  have hmap : (normalize s).getLast h
      = (fun c => if c = '\r' then '\n' else c) ((strings_TrimSpace s).getLast ht) := by
    unfold normalize strings_ReplaceAll
    rw [List.getLast_map]
  rw [hmap]
  intro heq
  apply hlast
  by_cases hc : (strings_TrimSpace s).getLast ht = '\r'
  · rw [hc]; decide
  · simp only [hc, if_false] at heq
    rw [heq]; decide

/-- The body `summarizeComment` returns is empty exactly for an annotation
that is not a highlight or whose content is white space only. -/
theorem summarizeComment_body_eq_nil_iff (c : AnnotationRenderer) :
    (summarizeComment c).2 = [] ↔
      (c.annType ≠ AnnHighLight ∨ ∀ x ∈ c.contentString, unicode_IsSpace x = true) := by
  by_cases hc : c.annType = AnnHighLight
  · rw [summarizeComment_eq, getCommentContents_highlight c hc]
    cases hm : tagMatch (normalize c.contentString) with
    | none =>
      simp only [hc, ne_eq, not_true_eq_false, false_or]
      exact normalize_eq_nil_iff c.contentString
    | some tr =>
      obtain ⟨tag, rest⟩ := tr
      obtain ⟨hs, -, -, -⟩ := (tagMatch_eq_some_iff _ tag rest).mp hm
      simp only [hc, ne_eq, not_true_eq_false, false_or]
      have hne : normalize c.contentString ≠ [] := by rw [hs]; simp
      constructor
      · intro hrest
        exfalso
        apply normalize_getLast_not_space c.contentString hne
        have hrest' : rest = [] := hrest
        have key : ∀ (l : GoString) (h : l ≠ []) (a : GoString), l = a ++ [' '] →
            l.getLast h = ' ' := by
          intro l h a hl
          subst hl
          simp
        apply key _ hne ('[' :: (tag ++ [']']))
        rw [hs, hrest']
        simp
      · intro hall
        exact absurd ((normalize_eq_nil_iff _).mpr hall) hne
  · rw [summarizeComment_eq, getCommentContents_other c hc]
    have h0 : tagMatch (normalize []) = none := by decide
    rw [h0]
    simp only [ne_eq, hc, not_false_eq_true, true_or, iff_true]
    rfl


theorem mem_filter_hasBody (es : List Entry) (e : Entry) (he : e ∈ es.filter hasBody) :
    (summarizeComment e.ann).2 ≠ [] := by
  have := (List.mem_filter.mp he).2
  unfold hasBody at this
  intro h0
  rw [h0] at this
  exact absurd this (by decide)

/-- C8: an annotation whose classified body is empty contributes nothing to
the output.  Removing all such annotations (those that are not highlights and
the highlights whose content is white space only) leaves the emitted text
unchanged; a mapping that holds only such annotations emits nothing; and the
emitted text consists of blocks of annotations with a non-empty body only, so
no header line is printed without quoted content. -/
theorem C8_empty_body_emits_nothing (annotations : Annotations) (stdout : GoString)
    (h : Annotations.WF annotations) :
    scrapeLoop (pruneEmpty annotations) stdout = scrapeLoop annotations stdout
    ∧ (∀ e : Entry, e ∈ entries (pruneEmpty annotations) ↔
        (e ∈ entries annotations ∧ (summarizeComment e.ann).2 ≠ []))
    ∧ (∀ c : AnnotationRenderer, (summarizeComment c).2 = [] ↔
        (c.annType ≠ AnnHighLight ∨ ∀ x ∈ c.contentString, unicode_IsSpace x = true))
    ∧ ((∀ e ∈ entries annotations, (summarizeComment e.ann).2 = []) →
        scrapeLoop annotations stdout = stdout)
    ∧ ∃ es : List Entry, (∀ e ∈ es, e ∈ entries annotations ∧ (summarizeComment e.ann).2 ≠ [])
        ∧ scrapeLoop annotations stdout
          = stdout ++ (es.map fun e =>
              markdownizeComment e.page (summarizeComment e.ann).1 (summarizeComment e.ann).2).flatten := by
  have hp := orderedEntries_perm annotations h
  have hs := orderedEntries_sorted annotations h
  refine ⟨?_, ?_, ?_, ?_, ?_⟩
  · rw [scrapeLoop_eq_of_sorted_perm annotations h _ hp hs,
      scrapeLoop_eq_of_sorted_perm (pruneEmpty annotations) (pruneEmpty_WF annotations h)
        ((orderedEntries annotations).filter hasBody)
        (by rw [entries_pruneEmpty]; exact hp.filter _)
        (List.Pairwise.sublist (List.filter_sublist _) hs),
      renderEntries_filter]
  · intro e
    rw [entries_pruneEmpty, List.mem_filter]
    constructor
    · rintro ⟨he, hb⟩
      exact ⟨he, mem_filter_hasBody [e] e (List.mem_filter.mpr ⟨List.mem_singleton_self e, hb⟩)⟩
    · rintro ⟨he, hb⟩
      refine ⟨he, ?_⟩
      unfold hasBody
      cases hc : (summarizeComment e.ann).2 with
      | nil => exact absurd hc hb
      | cons x t => rfl
  · exact summarizeComment_body_eq_nil_iff
  · intro hall
    rw [scrapeLoop_eq_of_sorted_perm annotations h _ hp hs,
      renderEntries_eq_nil _ (fun e he => hall e (hp.subset he))]
    simp
  · refine ⟨(orderedEntries annotations).filter hasBody, fun e he => ?_, ?_⟩
    · exact ⟨hp.subset (List.mem_filter.mp he).1, mem_filter_hasBody _ e he⟩
    · rw [scrapeLoop_eq_of_sorted_perm annotations h _ hp hs]
      rfl

/-- C8 on the samples: the sample annotations print the same text with and
without their blank highlight, link and popup, and annotations without any
body print nothing. -/
theorem C8_empty_body_emits_nothing_witness :
    Annotations.WF sampleAnnotations ∧ Annotations.WF sampleBlank
    ∧ pruneEmpty sampleAnnotations ≠ sampleAnnotations
    ∧ scrapeLoop (pruneEmpty sampleAnnotations) [] = scrapeLoop sampleAnnotations []
    ∧ (∀ e ∈ entries sampleBlank, (summarizeComment e.ann).2 = [])
    ∧ scrapeLoop sampleBlank [] = [] :=
  ⟨by decide, by decide, by decide,
    (C8_empty_body_emits_nothing sampleAnnotations [] (by decide)).1,
    by decide,
    (C8_empty_body_emits_nothing sampleBlank [] (by decide)).2.2.2.1 (by decide)⟩


/-! ## The command line: proofs -/

theorem scrapeFile_error (w : World) (filename : String) (p : Proc) :
    (scrapeFile w filename p).1 = scrapeError w filename := by
  unfold scrapeError scrapeFile
  cases h1 : w.osOpen filename with
  | error e => rfl
  | ok f =>
    simp only []
    cases h2 : w.pdfcpuAnnotations f with
    | error e => rfl
    | ok a => rfl

theorem scrapeFile_calls (w : World) (filename : String) (p : Proc) :
    (scrapeFile w filename p).2.calls = p.calls ++ [filename]
    ∧ (scrapeFile w filename p).2.opens = p.opens ++ [filename]
    ∧ (scrapeFile w filename p).2.stderr = p.stderr := by
  unfold scrapeFile
  cases h1 : w.osOpen filename with
  | error e => exact ⟨rfl, rfl, rfl⟩
  | ok f =>
    simp only []
    cases h2 : w.pdfcpuAnnotations f with
    | error e => exact ⟨rfl, rfl, rfl⟩
    | ok a => exact ⟨rfl, rfl, rfl⟩

theorem scrapeFiles_cons (w : World) (filename : String) (rest : List String) (p : Proc) :
    scrapeFiles w (filename :: rest) p
      = match scrapeError w filename with
        | some err => (some err, (scrapeFile w filename p).2)
        | none => scrapeFiles w rest (scrapeFile w filename p).2 := by
  rw [scrapeFiles, ← scrapeFile_error w filename p]
  rcases h : scrapeFile w filename p with ⟨_ | err, p1⟩ <;> rfl

theorem scrapeFiles_all_ok (w : World) (args : List String) (p : Proc)
    (h : ∀ f ∈ args, scrapeError w f = none) :
    (scrapeFiles w args p).1 = none ∧ (scrapeFiles w args p).2.calls = p.calls ++ args
    ∧ (scrapeFiles w args p).2.opens = p.opens ++ args := by
  induction args generalizing p with
  | nil => simp [scrapeFiles]
  | cons f rest ih =>
    rw [scrapeFiles_cons, h f (List.mem_cons_self _ _)]
    obtain ⟨h1, h2, h3⟩ := ih (scrapeFile w f p).2 (fun g hg => h g (List.mem_cons_of_mem _ hg))
    obtain ⟨c1, c2, -⟩ := scrapeFile_calls w f p
    refine ⟨h1, ?_, ?_⟩
    · rw [h2, c1]; simp
    · rw [h3, c2]; simp

theorem scrapeFiles_first_error (w : World) (pre : List String) (f : String)
    (post : List String) (e : GoError) (p : Proc)
    (hpre : ∀ g ∈ pre, scrapeError w g = none) (hf : scrapeError w f = some e) :
    (scrapeFiles w (pre ++ f :: post) p).1 = some e
    ∧ (scrapeFiles w (pre ++ f :: post) p).2.calls = p.calls ++ pre ++ [f]
    ∧ (scrapeFiles w (pre ++ f :: post) p).2.opens = p.opens ++ pre ++ [f] := by
  induction pre generalizing p with
  | nil =>
    obtain ⟨c1, c2, -⟩ := scrapeFile_calls w f p
    rw [List.nil_append, scrapeFiles_cons, hf]
    exact ⟨rfl, by simpa using c1, by simpa using c2⟩
  | cons g pre ih =>
    rw [List.cons_append, scrapeFiles_cons, hpre g (List.mem_cons_self _ _)]
    obtain ⟨h1, h2, h3⟩ := ih (scrapeFile w g p).2 (fun x hx => hpre x (List.mem_cons_of_mem _ hx))
    obtain ⟨c1, c2, -⟩ := scrapeFile_calls w g p
    refine ⟨h1, ?_, ?_⟩
    · rw [h2, c1]; simp
    · rw [h3, c2]; simp

theorem scrapeFiles_ok_imp (w : World) (args : List String) (p : Proc)
    (h : (scrapeFiles w args p).1 = none) : ∀ f ∈ args, scrapeError w f = none := by
  induction args generalizing p with
  | nil => intro f hf; cases hf
  | cons g rest ih =>
    rw [scrapeFiles_cons] at h
    cases hg : scrapeError w g with
    | some err => rw [hg] at h; exact absurd h (by simp)
    | none =>
      rw [hg] at h
      intro f hf
      rcases List.mem_cons.mp hf with rfl | hf
      · exact hg
      · exact ih _ h f hf

theorem mainErr_of_ne_nil (w : World) (args : List String) (p : Proc) (hne : args ≠ []) :
    mainErr w args p = scrapeFiles w args p := by
  unfold mainErr
  rw [if_neg]
  intro h
  exact hne (List.length_eq_zero.mp h)

/-- C9: with an empty argument list `mainErr` returns an error without doing
anything else: `scrapeFile` is not called, no file is opened, nothing is
written to standard output; `main` then exits with status 1 after writing the
error to standard error. -/
theorem C9_mainErr_no_arguments (w : World) (p : Proc) :
    (mainErr w [] p).1 = some usageError
    ∧ (mainErr w [] p).2 = p
    ∧ (main w [] p).1 = 1
    ∧ (main w [] p).2.calls = p.calls
    ∧ (main w [] p).2.opens = p.opens
    ∧ (main w [] p).2.stdout = p.stdout
    ∧ (main w [] p).2.stderr = p.stderr ++ usageError.msg.toList ++ ['\n'] :=
  ⟨rfl, rfl, rfl, rfl, rfl, rfl, rfl⟩

/-- C10: for a non-empty argument list `mainErr` calls `scrapeFile` on the
arguments in order and stops at the first one that fails: it returns that
file's error, having called `scrapeFile` on the arguments up to and including
that file and on no later one; when every file scrapes successfully it has
called `scrapeFile` on all arguments in order; and it returns success exactly
when every file scrapes successfully. -/
theorem C10_mainErr_stops_at_first_error (w : World) (args : List String) (p : Proc)
    (hne : args ≠ []) :
    ((mainErr w args p).1 = none ↔ ∀ f ∈ args, (scrapeFile w f Proc.start).1 = none)
    ∧ ((∀ f ∈ args, (scrapeFile w f Proc.start).1 = none) →
        (mainErr w args p).2.calls = p.calls ++ args)
    ∧ (∀ (pre : List String) (f : String) (post : List String) (e : GoError),
        args = pre ++ f :: post → (∀ g ∈ pre, (scrapeFile w g Proc.start).1 = none) →
        (scrapeFile w f Proc.start).1 = some e →
        (mainErr w args p).1 = some e ∧ (mainErr w args p).2.calls = p.calls ++ pre ++ [f])
    ∧ (∀ (f : String) (q : Proc),
        (scrapeFile w f q).1 = (scrapeFile w f Proc.start).1
        ∧ (scrapeFile w f q).2.calls = q.calls ++ [f]) := by
  rw [mainErr_of_ne_nil w args p hne]
  refine ⟨⟨scrapeFiles_ok_imp w args p, fun h => (scrapeFiles_all_ok w args p h).1⟩,
    fun h => (scrapeFiles_all_ok w args p h).2.1, ?_, ?_⟩
  · rintro pre f post e rfl hpre hf
    obtain ⟨h1, h2, -⟩ := scrapeFiles_first_error w pre f post e p hpre hf
    exact ⟨h1, h2⟩
  · intro f q
    exact ⟨scrapeFile_error w f q, (scrapeFile_calls w f q).1⟩

/-- C10 on the sample world: with the arguments `missing.pdf`, `valid.pdf` the
result is the error of opening `missing.pdf`, and `scrapeFile` is called on
`missing.pdf` only; nothing is printed. -/
theorem C10_mainErr_stops_at_first_error_witness :
    ["missing.pdf", "valid.pdf"] ≠ []
    ∧ (scrapeFile sampleWorld "missing.pdf" Proc.start).1
        = some ⟨"open missing.pdf: no such file or directory"⟩
    ∧ (scrapeFile sampleWorld "valid.pdf" Proc.start).1 = none
    ∧ (mainErr sampleWorld ["missing.pdf", "valid.pdf"] Proc.start).1
        = some ⟨"open missing.pdf: no such file or directory"⟩
    ∧ (mainErr sampleWorld ["missing.pdf", "valid.pdf"] Proc.start).2.calls = ["missing.pdf"]
    ∧ (mainErr sampleWorld ["missing.pdf", "valid.pdf"] Proc.start).2.stdout = [] :=
  ⟨by decide, by decide, by decide,
    ((C10_mainErr_stops_at_first_error sampleWorld ["missing.pdf", "valid.pdf"] Proc.start
      (by decide)).2.2.1 [] "missing.pdf" ["valid.pdf"]
      ⟨"open missing.pdf: no such file or directory"⟩ rfl (by simp) (by decide)).1,
    ((C10_mainErr_stops_at_first_error sampleWorld ["missing.pdf", "valid.pdf"] Proc.start
      (by decide)).2.2.1 [] "missing.pdf" ["valid.pdf"]
      ⟨"open missing.pdf: no such file or directory"⟩ rfl (by simp) (by decide)).2,
    by decide⟩

/-! ## The classifier: severity and empty bodies -/

/-- A non-empty severity only comes from a highlight whose normalized content
the pattern matches. -/
theorem tagMatch_of_severity_ne_nil (c : AnnotationRenderer)
    (h : (summarizeComment c).1 ≠ []) :
    c.annType = AnnHighLight
    ∧ tagMatch (normalize c.contentString)
        = some ((summarizeComment c).1, (summarizeComment c).2) := by
  by_cases hc : c.annType = AnnHighLight
  · refine ⟨hc, ?_⟩
    rw [summarizeComment_eq, getCommentContents_highlight c hc] at h ⊢
    cases hm : tagMatch (normalize c.contentString) with
    | none => rw [hm] at h; exact absurd rfl h
    | some tr => rfl
  · rw [summarizeComment_eq, getCommentContents_other c hc] at h
    exact absurd rfl h

/-- C11, as stated, fails: with an empty body `markdownizeComment` does not
stop after the header line; `strings.Split` of the empty string has one
(empty) piece, which is rendered as the quoted line `    > `. -/
theorem C11_counterexample :
    markdownizeComment 5 [] [] = "- [ ] Page 5\n    > \n".toList
    ∧ markdownizeComment 5 [] [] ≠ "- [ ] Page 5\n".toList
    ∧ markdownizeComment 3 "MINOR".toList [] = "- [ ] Page 3 (MINOR)\n    > \n".toList
    ∧ markdownizeComment 3 "MINOR".toList [] ≠ "- [ ] Page 3 (MINOR)\n".toList := by
  refine ⟨by decide, by decide, by decide, by decide⟩

/-- C11, amended: for every page and severity, `markdownizeComment` with an
empty body renders the header line followed by exactly one empty quoted line
`    > `. -/
theorem C11_markdownizeComment_empty_body (page : Int) (severity : GoString) :
    markdownizeComment page severity [] = headerLine page severity ++ "    > \n".toList := by
  rw [markdownizeComment_eq_renderSpec]
  rfl

/-- C12: a non-empty severity returned by `summarizeComment` consists of ASCII
letters, digits and underscores only, the annotation is a highlight, the
pattern matches its normalized content, and that content is exactly
`[` severity `] ` body: nothing of the comment is lost or altered. -/
theorem C12_severity_only_from_tag (c : AnnotationRenderer)
    (h : (summarizeComment c).1 ≠ []) :
    (∀ x ∈ (summarizeComment c).1, isWordChar x = true)
    ∧ c.annType = AnnHighLight
    ∧ normalize c.contentString
        = '[' :: ((summarizeComment c).1 ++ ']' :: ' ' :: (summarizeComment c).2)
    ∧ tagPattern.FindStringSubmatch (normalize c.contentString)
        = [normalize c.contentString, (summarizeComment c).1, (summarizeComment c).2] := by
  obtain ⟨hc, hm⟩ := tagMatch_of_severity_ne_nil c h
  obtain ⟨hs, -, hw, -⟩ := (tagMatch_eq_some_iff _ _ _).mp hm
  refine ⟨hw, hc, hs, ?_⟩
  rw [tagPattern_FindStringSubmatch, hm]

/-- C12 on a tagged highlight: `  [P_0] fix this<CR>` has severity `P_0`. -/
theorem C12_severity_only_from_tag_witness :
    (summarizeComment (highlight "  [P_0] fix this\r")).1 ≠ []
    ∧ summarizeComment (highlight "  [P_0] fix this\r") = ("P_0".toList, "fix this".toList)
    ∧ normalize (highlight "  [P_0] fix this\r").contentString
        = '[' :: ((summarizeComment (highlight "  [P_0] fix this\r")).1 ++ ']' :: ' ' ::
            (summarizeComment (highlight "  [P_0] fix this\r")).2) :=
  ⟨by decide, by decide,
    (C12_severity_only_from_tag (highlight "  [P_0] fix this\r") (by decide)).2.2.1⟩

theorem body_ne_nil_of_severity_ne_nil (c : AnnotationRenderer)
    (h : (summarizeComment c).1 ≠ []) : (summarizeComment c).2 ≠ [] := by
  obtain ⟨hc, hm⟩ := tagMatch_of_severity_ne_nil c h
  obtain ⟨hs, -, -, -⟩ := (tagMatch_eq_some_iff _ _ _).mp hm
  intro hb
  rcases (summarizeComment_body_eq_nil_iff c).mp hb with hnh | hall
  · exact hnh hc
  · have hn := (normalize_eq_nil_iff c.contentString).mpr hall
    rw [hn] at hs
    exact absurd hs (by simp)

/-- C14: `summarizeComment` returns an empty body exactly for an annotation
that is not a highlight or whose content is white space only; a non-empty
severity always comes with a non-empty body, so the driver's test for an
empty body never drops a tagged comment; and `[TAG] ` with nothing after the
tag is trimmed to `[TAG]` and returned unsplit. -/
theorem C14_empty_body_iff (c : AnnotationRenderer) :
    ((summarizeComment c).2 = [] ↔
      (c.annType ≠ AnnHighLight ∨ ∀ x ∈ c.contentString, unicode_IsSpace x = true))
    ∧ ((summarizeComment c).1 ≠ [] → (summarizeComment c).2 ≠ [])
    ∧ (∀ (page kind id : Int), (summarizeComment c).1 ≠ [] → hasBody ⟨page, kind, id, c⟩ = true)
    ∧ summarizeComment ⟨AnnHighLight, "[TAG] ".toList⟩ = ([], "[TAG]".toList) := by
  refine ⟨summarizeComment_body_eq_nil_iff c, body_ne_nil_of_severity_ne_nil c, ?_, by decide⟩
  intro page kind id h
  have hb := body_ne_nil_of_severity_ne_nil c h
  unfold hasBody
  cases hc : (summarizeComment c).2 with
  | nil => exact absurd hc hb
  | cons x t => rfl


/-! ## Decimal page numbers and single-line blocks -/

theorem digitChar_val (k : Nat) (h : k < 10) :
    (Nat.digitChar k).toNat = 48 + k := by
  interval_cases k <;> rfl

theorem toDigitsCore_append (fuel n : Nat) (ds : List Char) :
    Nat.toDigitsCore 10 fuel n ds = Nat.toDigitsCore 10 fuel n [] ++ ds := by
  induction fuel generalizing n ds with
  | zero => simp [Nat.toDigitsCore]
  | succ f ih =>
    simp only [Nat.toDigitsCore]
    split
    · simp
    · rw [ih (n / 10) (Nat.digitChar (n % 10) :: ds), ih (n / 10) [Nat.digitChar (n % 10)]]
      simp

theorem toDigitsCore_step (f n : Nat) :
    Nat.toDigitsCore 10 (f + 1) n []
      = if n / 10 = 0 then [Nat.digitChar (n % 10)]
        else Nat.toDigitsCore 10 f (n / 10) [] ++ [Nat.digitChar (n % 10)] := by
  simp only [Nat.toDigitsCore]
  split
  · rfl
  · rw [toDigitsCore_append]

theorem digitsValue_toDigitsCore (f n : Nat) (h : n < f) :
    digitsValue (Nat.toDigitsCore 10 f n []) = n := by
  induction f generalizing n with
  | zero => omega
  | succ f ih =>
    rw [toDigitsCore_step]
    have hd := digitChar_val (n % 10) (Nat.mod_lt _ (by norm_num))
    split
    · rename_i h0
      simp only [digitsValue, List.foldl_cons, List.foldl_nil, hd]
      omega
    · rename_i h0
      have hlt : n / 10 < f := by omega
      have := ih (n / 10) hlt
      unfold digitsValue at this ⊢
      rw [List.foldl_append, this]
      simp only [List.foldl_cons, List.foldl_nil, hd]
      omega

theorem toDigitsCore_digits (f n : Nat) :
    ∀ c ∈ Nat.toDigitsCore 10 f n [], 48 ≤ c.toNat ∧ c.toNat ≤ 57 := by
  induction f generalizing n with
  | zero => intro c hc; simp [Nat.toDigitsCore] at hc
  | succ f ih =>
    rw [toDigitsCore_step]
    have hd := digitChar_val (n % 10) (Nat.mod_lt _ (by norm_num))
    have hm : n % 10 < 10 := Nat.mod_lt _ (by norm_num)
    intro c hc
    split at hc
    · simp only [List.mem_singleton] at hc
      subst hc
      omega
    · rcases List.mem_append.mp hc with hc | hc
      · exact ih _ c hc
      · simp only [List.mem_singleton] at hc
        subst hc
        omega

theorem toDigits_eq (n : Nat) : Nat.toDigits 10 n = Nat.toDigitsCore 10 (n + 1) n [] := rfl

theorem digitsValue_toDigits (n : Nat) : digitsValue (Nat.toDigits 10 n) = n :=
  digitsValue_toDigitsCore (n + 1) n (Nat.lt_succ_self n)

theorem toDigits_injective (n m : Nat) (h : Nat.toDigits 10 n = Nat.toDigits 10 m) : n = m := by
  have := congrArg digitsValue h
  rwa [digitsValue_toDigits, digitsValue_toDigits] at this

/-- The characters `%d` prints: decimal digits and the minus sign. -/
theorem fmt_d_chars (page : Int) :
    ∀ c ∈ fmt_d page, c = '-' ∨ (48 ≤ c.toNat ∧ c.toNat ≤ 57) := by
  intro c hc
  cases page with
  | ofNat n => exact Or.inr (toDigitsCore_digits _ _ c hc)
  | negSucc n =>
    rcases List.mem_cons.mp hc with rfl | hc
    · exact Or.inl rfl
    · exact Or.inr (toDigitsCore_digits _ _ c hc)

theorem fmt_d_injective (p q : Int) (h : fmt_d p = fmt_d q) : p = q := by
  have hminus : ∀ n : Nat, '-' ∉ Nat.toDigits 10 n := by
    intro n hm
    have := toDigitsCore_digits _ _ _ hm
    exact absurd this.1 (by decide)
  cases p with
  | ofNat n =>
    cases q with
    | ofNat m => rw [toDigits_injective n m h]
    | negSucc m =>
      exfalso
      apply hminus n
      have : Nat.toDigits 10 n = '-' :: Nat.toDigits 10 (m + 1) := h
      rw [this]
      exact List.mem_cons_self _ _
  | negSucc n =>
    cases q with
    | ofNat m =>
      exfalso
      apply hminus m
      have : '-' :: Nat.toDigits 10 (n + 1) = Nat.toDigits 10 m := h
      rw [← this]
      exact List.mem_cons_self _ _
    | negSucc m =>
      have : '-' :: Nat.toDigits 10 (n + 1) = '-' :: Nat.toDigits 10 (m + 1) := h
      have := toDigits_injective _ _ (List.cons.inj this).2
      have hnm : n = m := by omega
      rw [hnm]

theorem fmt_d_no_newline (page : Int) : '\n' ∉ fmt_d page := by
  intro h
  rcases fmt_d_chars page _ h with h1 | h1
  · exact absurd h1 (by decide)
  · exact absurd h1.1 (by decide)

theorem isWordChar_ne_newline (s : GoString) (hs : ∀ x ∈ s, isWordChar x = true) :
    '\n' ∉ s := by
  intro h
  exact absurd (hs _ h) (by decide)


theorem strings_Split_single (s : GoString) (h : '\n' ∉ s) : strings_Split s '\n' = [s] := by
  unfold strings_Split List.splitOn
  apply List.splitOnP_eq_single
  intro x hx hp
  have : x = '\n' := by simpa using hp
  exact h (this ▸ hx)

theorem count_newline_headerLine (page : Int) (severity : GoString)
    (hs : ∀ x ∈ severity, isWordChar x = true) :
    (headerLine page severity).count '\n' = 1 := by
  have h1 : (fmt_d page).count '\n' = 0 := List.count_eq_zero.mpr (fmt_d_no_newline page)
  have h2 : severity.count '\n' = 0 := List.count_eq_zero.mpr (isWordChar_ne_newline severity hs)
  unfold headerLine
  split
  · simp only [List.count_append, h1]
    decide
  · simp only [List.count_append, h1, h2]
    decide

theorem count_newline_quotedLine (line : GoString) (h : '\n' ∉ line) :
    (quotedLine line).count '\n' = 1 := by
  have h1 : line.count '\n' = 0 := List.count_eq_zero.mpr h
  unfold quotedLine
  simp only [List.count_append, h1]
  decide

/-- C15: when `summarizeComment` returns a non-empty severity, the body holds
no newline, so only single-line comments are tagged; the block
`markdownizeComment` renders for it is the header line and one quoted line,
two lines in all. -/
theorem C15_tagged_comment_single_line (c : AnnotationRenderer) (page : Int)
    (h : (summarizeComment c).1 ≠ []) :
    '\n' ∉ (summarizeComment c).2
    ∧ markdownizeComment page (summarizeComment c).1 (summarizeComment c).2
        = headerLine page (summarizeComment c).1 ++ quotedLine (summarizeComment c).2
    ∧ (markdownizeComment page (summarizeComment c).1 (summarizeComment c).2).count '\n' = 2 := by
  obtain ⟨-, hm⟩ := tagMatch_of_severity_ne_nil c h
  obtain ⟨-, -, hw, hr⟩ := (tagMatch_eq_some_iff _ _ _).mp hm
  have hnl : '\n' ∉ (summarizeComment c).2 := fun hmem => hr _ hmem rfl
  have hblock : markdownizeComment page (summarizeComment c).1 (summarizeComment c).2
      = headerLine page (summarizeComment c).1 ++ quotedLine (summarizeComment c).2 := by
    rw [markdownizeComment_eq_renderSpec]
    unfold renderSpec
    rw [strings_Split_single _ hnl]
    simp
  refine ⟨hnl, hblock, ?_⟩
  rw [hblock, List.count_append, count_newline_headerLine page _ hw,
    count_newline_quotedLine _ hnl]

/-- C15 on a tagged highlight on page 7. -/
theorem C15_tagged_comment_single_line_witness :
    (summarizeComment (highlight "[MINOR] reword this")).1 ≠ []
    ∧ '\n' ∉ (summarizeComment (highlight "[MINOR] reword this")).2
    ∧ markdownizeComment 7 (summarizeComment (highlight "[MINOR] reword this")).1
          (summarizeComment (highlight "[MINOR] reword this")).2
        = "- [ ] Page 7 (MINOR)\n    > reword this\n".toList
    ∧ (markdownizeComment 7 (summarizeComment (highlight "[MINOR] reword this")).1
          (summarizeComment (highlight "[MINOR] reword this")).2).count '\n' = 2 :=
  ⟨by decide,
    (C15_tagged_comment_single_line (highlight "[MINOR] reword this") 7 (by decide)).1,
    by decide,
    (C15_tagged_comment_single_line (highlight "[MINOR] reword this") 7 (by decide)).2.2⟩


/-! ## The renderer is injective -/

theorem append_stop_unique (p : Char → Bool) (a b r t : GoString) (c d : Char)
    (ha : ∀ x ∈ a, p x = true) (hb : ∀ x ∈ b, p x = true) (hc : p c = false)
    (hd : p d = false) (h : a ++ c :: r = b ++ d :: t) : a = b ∧ c = d ∧ r = t := by
  have h1 := takeWhile_append_stop p a r c ha hc
  have h2 := takeWhile_append_stop p b t d hb hd
  rw [h] at h1
  have hab : a = b := h1.1.symm.trans h2.1
  have hcd : c :: r = d :: t := h1.2.symm.trans h2.2
  exact ⟨hab, (List.cons.inj hcd).1, (List.cons.inj hcd).2⟩

theorem quotedLines_injective (ls ms : List GoString) (hl : ∀ l ∈ ls, '\n' ∉ l)
    (hm : ∀ l ∈ ms, '\n' ∉ l)
    (h : (ls.map quotedLine).flatten = (ms.map quotedLine).flatten) : ls = ms := by
  induction ls generalizing ms with
  | nil =>
    cases ms with
    | nil => rfl
    | cons m ms => simp [quotedLine] at h
  | cons l ls ih =>
    cases ms with
    | nil => simp [quotedLine] at h
    | cons m ms =>
      simp only [List.map_cons, List.flatten_cons, quotedLine, List.append_assoc] at h
      have h2 := List.append_cancel_left h
      have hnl : ∀ (s : GoString), '\n' ∉ s → ∀ x ∈ s, (fun c : Char => c != '\n') x = true := by
        intro s hs x hx
        simp only [bne_iff_ne, ne_eq]
        rintro rfl
        exact hs hx
      obtain ⟨h3, -, h4⟩ := append_stop_unique (fun c => c != '\n') l m _ _ '\n' '\n'
        (hnl l (hl l (List.mem_cons_self _ _))) (hnl m (hm m (List.mem_cons_self _ _)))
        (by decide) (by decide) h2
      rw [h3, ih ms (fun x hx => hl x (List.mem_cons_of_mem _ hx))
        (fun x hx => hm x (List.mem_cons_of_mem _ hx)) h4]

theorem quotedBody_injective (b c : GoString)
    (h : ((strings_Split b '\n').map quotedLine).flatten
      = ((strings_Split c '\n').map quotedLine).flatten) : b = c := by
  have := quotedLines_injective _ _ (strings_Split_no_sep b '\n') (strings_Split_no_sep c '\n') h
  rw [← strings_Split_intercalate b '\n', ← strings_Split_intercalate c '\n', this]


theorem fmt_d_intChar (page : Int) :
    ∀ x ∈ fmt_d page,
      (fun c : Char => c == '-' || (decide (48 ≤ c.toNat) && decide (c.toNat ≤ 57))) x = true := by
  intro x hx
  rcases fmt_d_chars page x hx with h | h
  · simp [h]
  · simp [h.1, h.2]

theorem headerLine_append (page : Int) (severity rest : GoString) :
    headerLine page severity ++ rest
      = "- [ ] Page ".toList ++ (fmt_d page ++
          (if severity = [] then '\n' :: rest
           else ' ' :: '(' :: (severity ++ ')' :: '\n' :: rest))) := by
  unfold headerLine
  by_cases h : severity = []
  · simp [h]
  · simp [h]

theorem header_injective (p q : Int) (s t r u : GoString)
    (hs : ∀ x ∈ s, isWordChar x = true) (ht : ∀ x ∈ t, isWordChar x = true)
    (h : headerLine p s ++ r = headerLine q t ++ u) : p = q ∧ s = t ∧ r = u := by
  rw [headerLine_append, headerLine_append] at h
  have h1 := List.append_cancel_left h
  by_cases hse : s = []
  · by_cases hte : t = []
    · rw [if_pos hse, if_pos hte] at h1
      obtain ⟨hd, -, hr⟩ := append_stop_unique _ _ _ _ _ _ _ (fmt_d_intChar p) (fmt_d_intChar q)
        (by decide) (by decide) h1
      exact ⟨fmt_d_injective p q hd, hse.trans hte.symm, hr⟩
    · rw [if_pos hse, if_neg hte] at h1
      obtain ⟨-, hc, -⟩ := append_stop_unique _ _ _ _ _ _ _ (fmt_d_intChar p) (fmt_d_intChar q)
        (by decide) (by decide) h1
      exact absurd hc (by decide)
  · by_cases hte : t = []
    · rw [if_neg hse, if_pos hte] at h1
      obtain ⟨-, hc, -⟩ := append_stop_unique _ _ _ _ _ _ _ (fmt_d_intChar p) (fmt_d_intChar q)
        (by decide) (by decide) h1
      exact absurd hc (by decide)
    · rw [if_neg hse, if_neg hte] at h1
      obtain ⟨hd, -, hr⟩ := append_stop_unique _ _ _ _ _ _ _ (fmt_d_intChar p) (fmt_d_intChar q)
        (by decide) (by decide) h1
      have hr2 := (List.cons.inj hr).2
      obtain ⟨hst, -, hru⟩ := append_stop_unique isWordChar s t _ _ ')' ')' hs ht
        (by decide) (by decide) hr2
      exact ⟨fmt_d_injective p q hd, hst, (List.cons.inj hru).2⟩

/-- C16: `markdownizeComment` is injective on the inputs the classifier can
produce: for severities that are empty or made of ASCII letters, digits and
underscores, two equal blocks have the same page, the same severity and the
same body. -/
theorem C16_markdownizeComment_injective (p q : Int) (s t b c : GoString)
    (hs : ∀ x ∈ s, isWordChar x = true) (ht : ∀ x ∈ t, isWordChar x = true)
    (h : markdownizeComment p s b = markdownizeComment q t c) : p = q ∧ s = t ∧ b = c := by
  rw [markdownizeComment_eq_renderSpec, markdownizeComment_eq_renderSpec] at h
  unfold renderSpec at h
  obtain ⟨hp, hst, hq⟩ := header_injective p q s t _ _ hs ht h
  exact ⟨hp, hst, quotedBody_injective b c hq⟩

/-- C16 on samples: a block determines its inputs, and blocks that differ in
the page, in the severity or in the body are different texts. -/
theorem C16_markdownizeComment_injective_witness :
    (∀ x ∈ "MINOR".toList, isWordChar x = true)
    ∧ markdownizeComment 3 "MINOR".toList "a\nb".toList
        = markdownizeComment 3 "MINOR".toList "a\nb".toList
    ∧ ((3 : Int) = 3 ∧ "MINOR".toList = "MINOR".toList ∧ "a\nb".toList = "a\nb".toList)
    ∧ markdownizeComment 1 [] "1".toList ≠ markdownizeComment 11 [] [] :=
  ⟨by decide, rfl,
    C16_markdownizeComment_injective 3 3 "MINOR".toList "MINOR".toList "a\nb".toList
      "a\nb".toList (by decide) (by decide) rfl,
    fun h => absurd (C16_markdownizeComment_injective 1 11 [] [] "1".toList [] (by decide)
      (by decide) h).1 (by decide)⟩


/-! ## Sorting and the output of failing runs -/

/-- C13: for every finite sequence of integer keys, `sorted` returns the
sequence `collect` gathers, rearranged in ascending order: the result is
ascending and is a permutation of the input, every key occurring as often as
in the input; when the keys are distinct, as map keys are, it is strictly
ascending. -/
theorem C13_sorted_ascending_perm (i : List Int) :
    collect i = i
    ∧ (sorted i).Sorted (· ≤ ·)
    ∧ (sorted i).Perm i
    ∧ (∀ x : Int, (sorted i).count x = i.count x)
    ∧ (sorted i).length = i.length
    ∧ (i.Nodup → (sorted i).Sorted (· < ·)) :=
  ⟨collect_eq i, sorted_sorted i, sorted_perm i, fun x => (sorted_perm i).count_eq x,
    (sorted_perm i).length_eq, sorted_strict i⟩

/-- C13 on the page numbers 2, 10, 1 and on keys with a repetition. -/
theorem C13_sorted_ascending_perm_witness :
    sorted [2, 10, 1] = [1, 2, 10]
    ∧ ([2, 10, 1] : List Int).Nodup
    ∧ (sorted [2, 10, 1]).Sorted (· < ·)
    ∧ sorted [5, -3, 5, 0] = [-3, 0, 5, 5]
    ∧ (sorted [5, -3, 5, 0]).Perm [5, -3, 5, 0] :=
  ⟨by decide, by decide, (C13_sorted_ascending_perm [2, 10, 1]).2.2.2.2.2 (by decide),
    by decide, (C13_sorted_ascending_perm [5, -3, 5, 0]).2.2.1⟩

theorem scrapeLoop_append (annotations : Annotations) (stdout : GoString) :
    scrapeLoop annotations stdout = stdout ++ scrapeLoop annotations [] := by
  rw [scrapeLoop_eq annotations stdout, scrapeLoop_eq annotations []]
  simp

theorem scrapeFile_stdout (w : World) (filename : String) (p : Proc) :
    (scrapeFile w filename p).2.stdout
      = p.stdout ++ (scrapeFile w filename Proc.start).2.stdout := by
  unfold scrapeFile
  cases h1 : w.osOpen filename with
  | error e => simp [Proc.start]
  | ok f =>
    simp only []
    cases h2 : w.pdfcpuAnnotations f with
    | error e => simp [Proc.start]
    | ok a =>
      simp only [Proc.start]
      exact scrapeLoop_append a p.stdout

theorem scrapeFile_error_cases (w : World) (filename : String) (p : Proc) (e : GoError)
    (h : (scrapeFile w filename p).1 = some e) :
    (scrapeFile w filename p).2.stdout = p.stdout
    ∧ (w.osOpen filename = .error e
      ∨ ∃ f, w.osOpen filename = .ok f ∧ w.pdfcpuAnnotations f = .error e) := by
  unfold scrapeFile at h ⊢
  cases h1 : w.osOpen filename with
  | error e1 =>
    rw [h1] at h
    simp only [Option.some.injEq] at h
    subst h
    exact ⟨rfl, Or.inl rfl⟩
  | ok f =>
    rw [h1] at h
    simp only [] at h ⊢
    cases h2 : w.pdfcpuAnnotations f with
    | error e1 =>
      rw [h2] at h
      simp only [Option.some.injEq] at h
      subst h
      exact ⟨rfl, Or.inr ⟨f, rfl, h2⟩⟩
    | ok a =>
      rw [h2] at h
      exact absurd h (by simp)

theorem scrapeFiles_stdout_all_ok (w : World) (args : List String) (p : Proc)
    (h : ∀ f ∈ args, scrapeError w f = none) :
    (scrapeFiles w args p).2.stdout
      = p.stdout ++ (args.map fun g => (scrapeFile w g Proc.start).2.stdout).flatten := by
  induction args generalizing p with
  | nil => simp [scrapeFiles]
  | cons f rest ih =>
    rw [scrapeFiles_cons, h f (List.mem_cons_self _ _)]
    simp only []
    rw [ih _ (fun g hg => h g (List.mem_cons_of_mem _ hg)), scrapeFile_stdout w f p]
    simp

theorem scrapeFiles_stdout_first_error (w : World) (pre : List String) (f : String)
    (post : List String) (e : GoError) (p : Proc)
    (hpre : ∀ g ∈ pre, scrapeError w g = none) (hf : scrapeError w f = some e) :
    (scrapeFiles w (pre ++ f :: post) p).2.stdout
      = p.stdout ++ (pre.map fun g => (scrapeFile w g Proc.start).2.stdout).flatten := by
  induction pre generalizing p with
  | nil =>
    rw [List.nil_append, scrapeFiles_cons, hf]
    have he : (scrapeFile w f p).1 = some e := by rw [scrapeFile_error]; exact hf
    simpa using (scrapeFile_error_cases w f p e he).1
  | cons g pre ih =>
    rw [List.cons_append, scrapeFiles_cons, hpre g (List.mem_cons_self _ _)]
    simp only []
    rw [ih _ (fun x hx => hpre x (List.mem_cons_of_mem _ hx)), scrapeFile_stdout w g p]
    simp

theorem main_stdout (w : World) (args : List String) (p : Proc) :
    (main w args p).2.stdout = (mainErr w args p).2.stdout := by
  unfold main
  rcases mainErr w args p with ⟨_ | err, p1⟩ <;> rfl


/-- C17: a file whose scrape fails contributes no output.  `scrapeFile`
returns an error only when `os.Open` or `pdfcpu.Annotations` fails, and then
it has written nothing to standard output; once the annotations are extracted
it returns success.  Hence what the program writes to standard output is the
concatenation, in argument order, of the outputs of the files before the
first failing one (of all files when none fails). -/
theorem C17_failed_scrape_prints_nothing (w : World) (args : List String) (p : Proc) :
    (∀ (filename : String) (q : Proc) (e : GoError), (scrapeFile w filename q).1 = some e →
        (scrapeFile w filename q).2.stdout = q.stdout
        ∧ (w.osOpen filename = .error e
          ∨ ∃ f, w.osOpen filename = .ok f ∧ w.pdfcpuAnnotations f = .error e))
    ∧ (∀ (filename : String) (f : Nat) (annotations : Annotations) (q : Proc),
        w.osOpen filename = .ok f → w.pdfcpuAnnotations f = .ok annotations →
        (scrapeFile w filename q).1 = none
        ∧ (scrapeFile w filename q).2.stdout = q.stdout ++ scrapeLoop annotations [])
    ∧ (∀ (pre : List String) (f : String) (post : List String) (e : GoError),
        args = pre ++ f :: post → (∀ g ∈ pre, (scrapeFile w g Proc.start).1 = none) →
        (scrapeFile w f Proc.start).1 = some e →
        (main w args p).2.stdout
          = p.stdout ++ (pre.map fun g => (scrapeFile w g Proc.start).2.stdout).flatten)
    ∧ ((∀ g ∈ args, (scrapeFile w g Proc.start).1 = none) →
        (main w args p).2.stdout
          = p.stdout ++ (args.map fun g => (scrapeFile w g Proc.start).2.stdout).flatten) := by
  refine ⟨fun filename q e h => scrapeFile_error_cases w filename q e h, ?_, ?_, ?_⟩
  · intro filename f annotations q ho ha
    obtain ⟨h1, h2⟩ := scrapeFile_ok w filename f annotations q ho ha
    exact ⟨h1, h2.trans (scrapeLoop_append annotations q.stdout)⟩
  · rintro pre f post e rfl hpre hf
    rw [main_stdout, mainErr_of_ne_nil w _ p (by simp)]
    exact scrapeFiles_stdout_first_error w pre f post e p hpre hf
  · intro hall
    rw [main_stdout]
    cases args with
    | nil => simp [mainErr]
    | cons a rest =>
      rw [mainErr_of_ne_nil w _ p (by simp)]
      exact scrapeFiles_stdout_all_ok w _ p hall

/-- C17 on the sample world: with the arguments `valid.pdf`, `missing.pdf`,
`valid.pdf` the program prints the output of the first file once and nothing
else, and exits with status 1. -/
theorem C17_failed_scrape_prints_nothing_witness :
    (scrapeFile sampleWorld "valid.pdf" Proc.start).1 = none
    ∧ (scrapeFile sampleWorld "missing.pdf" Proc.start).1
        = some ⟨"open missing.pdf: no such file or directory"⟩
    ∧ (scrapeFile sampleWorld "missing.pdf" Proc.start).2.stdout = []
    ∧ (main sampleWorld ["valid.pdf", "missing.pdf", "valid.pdf"] Proc.start).2.stdout
        = Proc.start.stdout
          ++ (["valid.pdf"].map fun g => (scrapeFile sampleWorld g Proc.start).2.stdout).flatten
    ∧ (main sampleWorld ["valid.pdf", "missing.pdf", "valid.pdf"] Proc.start).2.stdout
        = scrapeLoop sampleAnnotations []
    ∧ (main sampleWorld ["valid.pdf", "missing.pdf", "valid.pdf"] Proc.start).1 = 1 :=
  ⟨by decide, by decide, by decide,
    (C17_failed_scrape_prints_nothing sampleWorld ["valid.pdf", "missing.pdf", "valid.pdf"]
      Proc.start).2.2.1 ["valid.pdf"] "missing.pdf" ["valid.pdf"]
      ⟨"open missing.pdf: no such file or directory"⟩ rfl (by decide) (by decide),
    by decide, by decide⟩


end Comment2Issue
